import Mathlib

/-!
Verification development for the Eidos core of SLiM.

This file gives a shallow embedding of the Eidos symbol-table chain
(eidos_symbol_table.cpp), the command-line constant machinery, the
termination/error-reporting stream, the global string-ID interner
(eidos_global.cpp), and the MutationRun recycling pool (mutation_run.h),
and proves the specified properties about them.

Machine integers that cannot overflow in the modelled scenarios are
represented by Nat/Int.  C++ std::unordered_map is modelled by an
association list: find is the first-match lookup, insert appends a
binding only when the key is absent, assignment through an iterator
replaces the bound value in place, erase removes the found binding.
Fallible operations (those that raise through EIDOS_TERMINATION) return
Option, with none standing for the raised diagnostic.

The small-array capacity EIDOS_SYMBOL_TABLE_BASE_SIZE is defined in
eidos_symbol_table.h, which is not among the provided sources; the
development is therefore parameterized over that capacity (called cap
below), so every theorem holds for any choice of it.
-/

/-- Interned identifier, as produced by EidosGlobalStringIDForString. -/
abbrev EidosGlobalStringID := Nat

/-- The three table kinds of EidosSymbolTableType in eidos_symbol_table.h. -/
inductive EidosSymbolTableType where
  | kEidosIntrinsicConstantsTable
  | kEidosDefinedConstantsTable
  | kVariablesTable
deriving DecidableEq

/-- Abstraction of an EidosValue as seen by the symbol table: a payload
standing for the value contents, the Invisible() flag, and the shared
pointer use_count().  Only these three observations are consulted by the
symbol-table code under verification. -/
structure EidosValue where
  payload : Nat
  invisible : Bool
  use_count : Nat
deriving DecidableEq

/-- Modelled from the spec: EidosValue::CopyValues lives in
eidos_value.cpp, which is not among the provided sources.  Per the spec
(a deep copy of element storage, producing a new value with refcount 0,
held by exactly the new reference) and the source comment at
eidos_symbol_table.cpp line 243 (the copy is taken precisely so that the
table never stores an invisible value), the copy preserves the payload,
is not invisible, and is uniquely owned by its holder. -/
def CopyValues (v : EidosValue) : EidosValue :=
  { payload := v.payload, invisible := false, use_count := 1 }

/-- The copy-unless-uniquely-owned-and-visible step shared by
SetValueForSymbol (line 244) and DefineConstantForSymbol (line 407). -/
def storeValue (v : EidosValue) : EidosValue :=
  if v.use_count ≠ 1 ∨ v.invisible then CopyValues v else v

/-- First-match association-list lookup; models std::unordered_map::find. -/
def lookupAssoc {α β : Type} [DecidableEq α] : List (α × β) → α → Option β
  | [], _ => none
  | (m, w) :: rest, k => if m = k then some w else lookupAssoc rest k

/-- Models std::unordered_map::insert: adds the binding only when the key
is absent (insert does not overwrite an existing key). -/
def hashInsert {α β : Type} [DecidableEq α] : List (α × β) → α → β → List (α × β)
  | [], k, v => [(k, v)]
  | (m, w) :: rest, k, v =>
    if m = k then (m, w) :: rest else (m, w) :: hashInsert rest k v

/-- Models assignment through a found iterator: replaces the value bound
to the key (first match). -/
def hashAssign {α β : Type} [DecidableEq α] : List (α × β) → α → β → List (α × β)
  | [], _, _ => []
  | (m, w) :: rest, k, v =>
    if m = k then (m, v) :: rest else (m, w) :: hashAssign rest k v

/-- Models std::unordered_map::erase of a found iterator. -/
def hashErase {α β : Type} [DecidableEq α] : List (α × β) → α → List (α × β)
  | [], _ => []
  | (m, w) :: rest, k => if m = k then rest else (m, w) :: hashErase rest k

/-- Back-to-front search of the internal array (the C++ loops run the
index from internal_symbol_count_ - 1 down to 0), returning the value of
the last slot bearing the name. -/
def lookupInternalBack : List (EidosGlobalStringID × EidosValue) → EidosGlobalStringID →
    Option EidosValue
  | [], _ => none
  | (m, w) :: rest, k =>
    match lookupInternalBack rest k with
    | some v => some v
    | none => if m = k then some w else none

/-- Back-to-front search and in-place replacement of the value in the
found slot, as done by the internal-storage branch of SetValueForSymbol
when the symbol is already defined locally; none when the name is absent. -/
def setInternalBack : List (EidosGlobalStringID × EidosValue) → EidosGlobalStringID →
    EidosValue → Option (List (EidosGlobalStringID × EidosValue))
  | [], _, _ => none
  | (m, w) :: rest, k, v =>
    match setInternalBack rest k v with
    | some rest2 => some ((m, w) :: rest2)
    | none => if m = k then some ((m, v) :: rest) else none

/-- Index of the slot found by the back-to-front scan (the largest index
bearing the name), as used by _RemoveSymbol. -/
def findBackSlot : List (EidosGlobalStringID × EidosValue) → EidosGlobalStringID → Option Nat
  | [], _ => none
  | (m, _) :: rest, k =>
    match findBackSlot rest k with
    | some i => some (i + 1)
    | none => if m = k then some 0 else none

/-- Removal of slot i from the internal array in _RemoveSymbol: the last
slot is moved into the hole and the count decremented. -/
def removeAtBackfill (l : List (EidosGlobalStringID × EidosValue)) (i : Nat) :
    List (EidosGlobalStringID × EidosValue) :=
  match l.getLast? with
  | none => l
  | some last => (l.set i last).dropLast

/-- One symbol table of the chain: its type tag, its storage mode, and the
two storages (internal small array in insertion order, hash map). -/
structure EidosSymbolTable where
  table_type_ : EidosSymbolTableType
  using_internal_symbols_ : Bool
  internal_symbols_ : List (EidosGlobalStringID × EidosValue)
  hash_symbols_ : List (EidosGlobalStringID × EidosValue)
deriving DecidableEq

/-- A symbol-table chain, head = the table itself, tail = its parent
chain (the parent_symbol_table_ links), root last. -/
abbrev SymbolChain := List EidosSymbolTable

/-- Lookup within one table, dispatching on the storage mode exactly as
every member function of EidosSymbolTable does. -/
def ownLookup (t : EidosSymbolTable) (k : EidosGlobalStringID) : Option EidosValue :=
  if t.using_internal_symbols_ then lookupInternalBack t.internal_symbols_ k
  else lookupAssoc t.hash_symbols_ k

/-- The names held by one table, in storage order (used by _SymbolNames). -/
def ownNames (t : EidosSymbolTable) : List EidosGlobalStringID :=
  if t.using_internal_symbols_ then t.internal_symbols_.map Prod.fst
  else t.hash_symbols_.map Prod.fst

/-- EidosSymbolTable::ContainsSymbol, lines 134-154: check own storage,
then delegate to the parent. -/
def ContainsSymbol : SymbolChain → EidosGlobalStringID → Bool
  | [], _ => false
  | t :: parents, k =>
    match ownLookup t k with
    | some _ => true
    | none => ContainsSymbol parents k

/-- EidosSymbolTable::_GetValue, lines 156-182: search own storage, then
the parent chain; at the root with no hit the code raises the undefined
identifier diagnostic, modelled by none. -/
def _GetValue : SymbolChain → EidosGlobalStringID → Option EidosValue
  | [], _ => none
  | t :: parents, k =>
    match ownLookup t k with
    | some v => some v
    | none => _GetValue parents k

/-- EidosSymbolTable::_SwitchToHash, lines 219-237: every internal slot is
inserted into the hash storage in index order, the internal array is
cleared, and the mode flag flips (one-way). -/
def _SwitchToHash (t : EidosSymbolTable) : EidosSymbolTable :=
  if t.using_internal_symbols_ then
    { t with
      hash_symbols_ :=
        t.internal_symbols_.foldl (fun h e => hashInsert h e.1 e.2) t.hash_symbols_,
      internal_symbols_ := [],
      using_internal_symbols_ := false }
  else t

/-- The hash-storage phase of SetValueForSymbol (lines 286-301), also the
fall-through target after _SwitchToHash: upsert, with the constant check
against the parent chain when the symbol is new to this table. -/
def setHashPhase (t : EidosSymbolTable) (parents : SymbolChain)
    (k : EidosGlobalStringID) (v : EidosValue) :
    Option (EidosSymbolTable × SymbolChain) :=
  match lookupAssoc t.hash_symbols_ k with
  | none =>
    if ContainsSymbol parents k then none
    else some ({ t with hash_symbols_ := hashInsert t.hash_symbols_ k v }, parents)
  | some _ => some ({ t with hash_symbols_ := hashAssign t.hash_symbols_ k v }, parents)

/-- The body shared verbatim by SetValueForSymbol (after its copy step)
and SetValueForSymbolNoCopy (after its invisibility check), lines 247-301
and 316-370.  cap is EIDOS_SYMBOL_TABLE_BASE_SIZE. -/
def setCore (cap : Nat) (t : EidosSymbolTable) (parents : SymbolChain)
    (k : EidosGlobalStringID) (v : EidosValue) :
    Option (EidosSymbolTable × SymbolChain) :=
  if t.using_internal_symbols_ then
    match setInternalBack t.internal_symbols_ k v with
    | some l2 => some ({ t with internal_symbols_ := l2 }, parents)
    | none =>
      if ContainsSymbol parents k then none
      else if t.internal_symbols_.length < cap then
        some ({ t with internal_symbols_ := t.internal_symbols_ ++ [(k, v)] }, parents)
      else
        setHashPhase (_SwitchToHash t) parents k v
  else
    setHashPhase t parents k v

/-- EidosSymbolTable::SetValueForSymbol, lines 239-302: copy the value
unless it is uniquely owned and not invisible, then upsert with the
redefinition-of-constant check. -/
def SetValueForSymbol (cap : Nat) (t : EidosSymbolTable) (parents : SymbolChain)
    (k : EidosGlobalStringID) (v : EidosValue) :
    Option (EidosSymbolTable × SymbolChain) :=
  setCore cap t parents k (storeValue v)

/-- EidosSymbolTable::SetValueForSymbolNoCopy, lines 304-371: raises when
handed an invisible value, otherwise stores the value without copying. -/
def SetValueForSymbolNoCopy (cap : Nat) (t : EidosSymbolTable) (parents : SymbolChain)
    (k : EidosGlobalStringID) (v : EidosValue) :
    Option (EidosSymbolTable × SymbolChain) :=
  if v.invisible then none
  else setCore cap t parents k v

/-- EidosSymbolTable::_InitializeConstantSymbolEntry, lines 484-512: add
the entry to the internal array if there is room, else switch to hash and
insert (the symbol is assumed not yet defined in this table). -/
def _InitializeConstantSymbolEntry (cap : Nat) (t : EidosSymbolTable)
    (k : EidosGlobalStringID) (v : EidosValue) : EidosSymbolTable :=
  if t.using_internal_symbols_ then
    if t.internal_symbols_.length < cap then
      { t with internal_symbols_ := t.internal_symbols_ ++ [(k, v)] }
    else
      let t2 := _SwitchToHash t
      { t2 with hash_symbols_ := hashInsert t2.hash_symbols_ k v }
  else
    { t with hash_symbols_ := hashInsert t.hash_symbols_ k v }

/-- Index of the first table of the chain whose type is the defined
constants table (the first search loop of DefineConstantForSymbol). -/
def findDefinedConstantsIdx : SymbolChain → Option Nat
  | [] => none
  | t :: rest =>
    if t.table_type_ = EidosSymbolTableType.kEidosDefinedConstantsTable then some 0
    else (findDefinedConstantsIdx rest).map (· + 1)

/-- Index of the first table of the chain whose parent is the intrinsic
constants table (the second search loop of DefineConstantForSymbol). -/
def findChildOfIntrinsicIdx : SymbolChain → Option Nat
  | [] => none
  | [_] => none
  | _ :: p :: rest =>
    if p.table_type_ = EidosSymbolTableType.kEidosIntrinsicConstantsTable then some 0
    else (findChildOfIntrinsicIdx (p :: rest)).map (· + 1)

/-- A freshly constructed defined-constants table (constructor at lines
46-102 with the parent link represented by list position; storage starts
in internal-array mode per the spec description of scope storage, the
default of the p_start_with_hash constructor argument being declared in
the header absent from src). -/
def newDefinedConstantsTable : EidosSymbolTable :=
  { table_type_ := EidosSymbolTableType.kEidosDefinedConstantsTable,
    using_internal_symbols_ := true,
    internal_symbols_ := [],
    hash_symbols_ := [] }

/-- EidosSymbolTable::DefineConstantForSymbol, lines 373-412: fail if the
name is bound anywhere in the chain; find the defined-constants table, or
create one and link it right above the intrinsic constants table; copy
the value unless uniquely owned and visible; install the entry. -/
def DefineConstantForSymbol (cap : Nat) (chain : SymbolChain)
    (k : EidosGlobalStringID) (v0 : EidosValue) : Option SymbolChain :=
  if ContainsSymbol chain k then none
  else
    let v := storeValue v0
    match findDefinedConstantsIdx chain with
    | some i =>
      match chain[i]? with
      | some t => some (chain.set i (_InitializeConstantSymbolEntry cap t k v))
      | none => none
    | none =>
      match findChildOfIntrinsicIdx chain with
      | none => none
      | some i =>
        some (chain.take (i + 1) ++
          [_InitializeConstantSymbolEntry cap newDefinedConstantsTable k v] ++
          chain.drop (i + 1))

/-- EidosSymbolTable::_RemoveSymbol, lines 414-482: remove from the
nearest table of the chain holding the name; a constant table rejects the
removal (intrinsic constants always, defined constants unless
p_remove_constant); internal storage backfills the hole with the last
slot. -/
def _RemoveSymbol : SymbolChain → EidosGlobalStringID → Bool → Option SymbolChain
  | [], _, _ => some []
  | t :: parents, k, allow =>
    if t.using_internal_symbols_ then
      match findBackSlot t.internal_symbols_ k with
      | some i =>
        if t.table_type_ ≠ EidosSymbolTableType.kVariablesTable ∧
            t.table_type_ = EidosSymbolTableType.kEidosIntrinsicConstantsTable then none
        else if t.table_type_ ≠ EidosSymbolTableType.kVariablesTable ∧ allow = false then none
        else some ({ t with internal_symbols_ := removeAtBackfill t.internal_symbols_ i }
            :: parents)
      | none =>
        match _RemoveSymbol parents k allow with
        | some ps => some (t :: ps)
        | none => none
    else
      match lookupAssoc t.hash_symbols_ k with
      | some _ =>
        if t.table_type_ ≠ EidosSymbolTableType.kVariablesTable ∧
            t.table_type_ = EidosSymbolTableType.kEidosIntrinsicConstantsTable then none
        else if t.table_type_ ≠ EidosSymbolTableType.kVariablesTable ∧ allow = false then none
        else some ({ t with hash_symbols_ := hashErase t.hash_symbols_ k } :: parents)
      | none =>
        match _RemoveSymbol parents k allow with
        | some ps => some (t :: ps)
        | none => none

/-- EidosSymbolTable::_SymbolNames, lines 108-132, with names represented
by their interned IDs: parent names first, then the own names of every
table whose kind is selected by the include flags. -/
def _SymbolNames : SymbolChain → Bool → Bool → List EidosGlobalStringID
  | [], _, _ => []
  | t :: parents, incC, incV =>
    _SymbolNames parents incC incV ++
      (if (incC ∧ t.table_type_ ≠ EidosSymbolTableType.kVariablesTable) ∨
          (incV ∧ t.table_type_ = EidosSymbolTableType.kVariablesTable) then
        ownNames t
      else [])

/-- Eidos_GoodSymbolForDefine, eidos_global.cpp lines 123-164: rejects
the intrinsic constant names, the Eidos keywords, the SLiM constant sim,
and any identifier of length at least two whose first character is p, g,
m or s and whose remaining characters are all digits. -/
def Eidos_GoodSymbolForDefine (s : String) : Bool :=
  let good0 := true
  let good1 :=
    if s = "T" ∨ s = "F" ∨ s = "NULL" ∨ s = "PI" ∨ s = "E" ∨ s = "INF" ∨ s = "NAN" then false
    else good0
  let good2 :=
    if s = "if" ∨ s = "else" ∨ s = "do" ∨ s = "while" ∨ s = "for" ∨ s = "in" ∨ s = "next" ∨
        s = "break" ∨ s = "return" then false
    else good1
  let good3 := if s = "sim" then false else good2
  if 2 ≤ s.length then
    match s.data with
    | [] => good3
    | first_ch :: rest =>
      if first_ch = 'p' ∨ first_ch = 'g' ∨ first_ch = 'm' ∨ first_ch = 's' then
        if rest.all (fun c => if c < '0' ∨ '9' < c then false else true) then false
        else good3
      else good3
  else good3

/-- Outcome of processing one command-line constant string. -/
inductive CLDefineResult where
  | installed (table : EidosSymbolTable) (name : String) (value : EidosValue)
  | malformed
  | illegalName (name : String)
deriving DecidableEq

/-- Modelled from the spec: the tokenizer, parser and interpreter invoked
by Eidos_DefineConstantsFromCommandLine (eidos_global.cpp lines 189-292)
live in eidos_script.cpp and eidos_interpreter.cpp, which are not among
the provided sources.  parseAssign abstracts the tokenize/parse/AST-shape
check of lines 203-245, returning the identifier on the left of the
assignment and the expression substring to its right, or none when the
string does not parse to a single assignment to an identifier; evalExpr
abstracts Eidos_ValueForCommandLineExpression (lines 166-187), which
evaluates the expression in an ephemeral variables scope over the
constants table and yields none when tokenizing, parsing or evaluation
throws; internId abstracts EidosGlobalStringIDForString.  The control
flow around these oracles follows lines 196-292: a parse failure or an
evaluation failure ends in the malformed-constant diagnostic, a bad
symbol name ends in the illegal-name diagnostic, and success installs
the value into the constants table via InitializeConstantSymbolEntry. -/
def Eidos_ProcessCommandLineConstant (cap : Nat)
    (parseAssign : String → Option (String × String))
    (evalExpr : String → Option EidosValue)
    (internId : String → EidosGlobalStringID)
    (constantsTable : EidosSymbolTable) (constant : String) : CLDefineResult :=
  match parseAssign constant with
  | none => CLDefineResult.malformed
  | some (symbol_name, value_expression) =>
    if Eidos_GoodSymbolForDefine symbol_name then
      match evalExpr value_expression with
      | some x_value =>
        CLDefineResult.installed
          (_InitializeConstantSymbolEntry cap constantsTable (internId symbol_name) x_value)
          symbol_name x_value
      | none => CLDefineResult.malformed
    else CLDefineResult.illegalName symbol_name

/-- The backward loop of eidos_log_script_error (lines 525-527): walk
lineStart down while the preceding character is not a line break. -/
def backToLineStart (cs : List Char) : Nat → Nat
  | 0 => 0
  | i + 1 =>
    if cs[i]? = some '\n' ∨ cs[i]? = some '\r' then i + 1
    else backToLineStart cs i

/-- The forward loop of eidos_log_script_error (lines 528-530): walk
lineEnd up while the following character is not a line break. -/
def fwdToLineEnd (cs : List Char) (i : Nat) : Nat :=
  if h : i < cs.length - 1 then
    if cs[i + 1]? = some '\n' ∨ cs[i + 1]? = some '\r' then i
    else fwdToLineEnd cs (i + 1)
  else i
termination_by cs.length - i
decreasing_by omega

/-- The script-line excerpt emission of eidos_log_script_error (lines
549-561): tabs become three spaces, the excerpt stops at a line break. -/
def scriptLineText : List Char → String
  | [] => ""
  | c :: rest =>
    if c = '\t' then "   " ++ scriptLineText rest
    else if c = '\n' ∨ c = '\r' then ""
    else String.mk [c] ++ scriptLineText rest

/-- The indicator-padding emission of eidos_log_script_error (lines
564-575): a space per character (three per tab), stopping at a break. -/
def indicatorPadding : List Char → String
  | [] => ""
  | c :: rest =>
    if c = '\t' then "   " ++ indicatorPadding rest
    else if c = '\n' ∨ c = '\r' then ""
    else " " ++ indicatorPadding rest

/-- eidos_log_script_error, eidos_global.cpp lines 511-584: when a script
and a valid byte-offset range are at hand, append to the output the
line/character header, the source-line excerpt, and the caret indicator
line spanning the offending range; otherwise append nothing. -/
def eidos_log_script_error (p_out : String) (p_start p_end : Int)
    (p_script : Option String) (p_inside_lambda : Bool) : String :=
  match p_script with
  | none => p_out
  | some script_string =>
    if p_start ≥ 0 ∧ p_end ≥ p_start then
      let cs := script_string.data
      let length := cs.length
      if (length : Int) ≥ p_start ∧ (length : Int) ≥ p_end then
        let pstart := p_start.toNat
        let pend := p_end.toNat
        let lineStart := backToLineStart cs (if pstart < length then pstart else length - 1)
        let lineEnd := fwdToLineEnd cs (if pend < length then pend else length - 1)
        let header := "\nError on script line " ++ toString (1 + (cs.take lineStart).count '\n')
          ++ ", character " ++ toString (pstart - lineStart) ++
          (if p_inside_lambda then " (inside runtime script block)" else "") ++ ":\n\n"
        let lineText := scriptLineText ((cs.drop lineStart).take (lineEnd + 1 - lineStart))
        let padding := indicatorPadding ((cs.drop lineStart).take (pstart - lineStart))
        let carets := String.mk (List.replicate (pend + 1 - pstart) '^')
        p_out ++ header ++ lineText ++ "\n" ++ padding ++ carets ++ "\n"
      else p_out
    else p_out

/-- The C EXIT_FAILURE status passed to exit() at line 626. -/
def EXIT_FAILURE : Nat := 1

/-- The global termination state consulted by operator<< on
eidos_terminate (lines 604-628): the throw-or-exit mode flag, the
accumulated termination stream (the target of EIDOS_TERMINATION in
throws mode), the console output so far (the target in exits mode), and
the stored error byte offsets and current script used for the caret
diagnostic. -/
structure EidosTermContext where
  gEidosTerminateThrows : Bool
  gEidosTermination : String
  consoleOut : String
  gEidosCharacterStartOfError : Int
  gEidosCharacterEndOfError : Int
  gEidosCurrentScript : Option String
  gEidosExecutingRuntimeScript : Bool
deriving DecidableEq

/-- What emitting the terminator marker does: either a catchable runtime
error is thrown (throws mode) or the process exits (exits mode). -/
inductive TermOutcome where
  | raised (what : String) (ctx : EidosTermContext)
  | exited (status : Nat) (output : String)
deriving DecidableEq

/-- operator<<(std::ostream, eidos_terminate), lines 604-628: a final
endl is streamed; in throws mode a std::runtime_error is thrown; in
exits mode the caret diagnostic is appended to the printed message and
exit(EXIT_FAILURE) is called. -/
def eidos_terminate_emit (ctx : EidosTermContext) : TermOutcome :=
  if ctx.gEidosTerminateThrows then
    TermOutcome.raised "A runtime error occurred in Eidos"
      { ctx with gEidosTermination := ctx.gEidosTermination ++ "\n" }
  else
    TermOutcome.exited EXIT_FAILURE
      (eidos_log_script_error (ctx.consoleOut ++ "\n")
        ctx.gEidosCharacterStartOfError ctx.gEidosCharacterEndOfError
        ctx.gEidosCurrentScript ctx.gEidosExecutingRuntimeScript)

/-- The find_last_not_of newline trimming of EidosGetTrimmedRaiseMessage
(lines 639-642): drop trailing line breaks, except that a message made
of nothing but line breaks is returned unchanged. -/
def trimTrailingNewlines (s : String) : String :=
  let kept := (s.data.reverse.dropWhile (fun c => c = '\n' ∨ c = '\r')).reverse
  if kept.isEmpty then s else String.mk kept

/-- EidosGetTrimmedRaiseMessage, lines 630-650: in throws mode, read the
accumulated termination stream, reset the stream to the empty string,
and return the message with trailing line breaks trimmed; in exits mode
return the empty string. -/
def EidosGetTrimmedRaiseMessage (ctx : EidosTermContext) : String × EidosTermContext :=
  if ctx.gEidosTerminateThrows then
    (trimTrailingNewlines ctx.gEidosTermination, { ctx with gEidosTermination := "" })
  else
    ("", ctx)

/-- MutationRun, mutation_run.h: the presently used entry count, the
buffer contents, and the operation marker; per the in-class member
initializers (lines 74-81) a constructed run has count 0. -/
structure MutationRun where
  mutation_count_ : Nat
  mutations_ : List Int
  operation_id_ : Int
deriving DecidableEq

/-- MutationRun::size, lines 129-131. -/
def MutationRun.size (r : MutationRun) : Nat := r.mutation_count_

/-- A run as built by the constructor (constructed empty, per the member
initializers at lines 74-81 and the declaration comment at line 111). -/
def MutationRun.fresh : MutationRun :=
  { mutation_count_ := 0, mutations_ := [], operation_id_ := 0 }

/-- The static free list s_freed_mutation_runs_ (line 107). -/
structure MutationRunState where
  s_freed_mutation_runs_ : List MutationRun
deriving DecidableEq

/-- MutationRun::NewMutationRun, lines 88-99: pop the back of the free
list when it is nonempty, else construct a new run. -/
def NewMutationRun (st : MutationRunState) : MutationRun × MutationRunState :=
  match st.s_freed_mutation_runs_.getLast? with
  | some back =>
    (back, { s_freed_mutation_runs_ := st.s_freed_mutation_runs_.dropLast })
  | none => (MutationRun.fresh, st)

/-- MutationRun::FreeMutationRun, lines 101-105: reset the mutation count
to 0 and push the run on the free list. -/
def FreeMutationRun (r : MutationRun) (st : MutationRunState) : MutationRunState :=
  { s_freed_mutation_runs_ :=
      st.s_freed_mutation_runs_ ++ [{ r with mutation_count_ := 0 }] }

/-- gEidosStr_undefined, eidos_global.cpp line 995. -/
def gEidosStr_undefined : String := "undefined"

/-- The interner state: gStringToID, gIDToString and gNextUnusedID
(eidos_global.cpp; the two hash maps are modelled as association
lists). -/
structure EidosStringRegistry where
  gStringToID : List (String × Nat)
  gIDToString : List (Nat × String)
  gNextUnusedID : Nat
deriving DecidableEq

/-- EidosGlobalStringIDForString, lines 1086-1106: return the registered
ID, or register the string under gNextUnusedID (incrementing it) as a
side effect. -/
def EidosGlobalStringIDForString (st : EidosStringRegistry) (s : String) :
    Nat × EidosStringRegistry :=
  match lookupAssoc st.gStringToID s with
  | some string_id => (string_id, st)
  | none =>
    let string_id := st.gNextUnusedID
    (string_id,
      { gStringToID := st.gStringToID ++ [(s, string_id)],
        gIDToString := st.gIDToString ++ [(string_id, s)],
        gNextUnusedID := string_id + 1 })

/-- StringForEidosGlobalStringID, lines 1108-1117: an unregistered ID
yields gEidosStr_undefined instead of an error. -/
def StringForEidosGlobalStringID (st : EidosStringRegistry) (string_id : Nat) : String :=
  match lookupAssoc st.gIDToString string_id with
  | none => gEidosStr_undefined
  | some s => s

/-- Well-formedness of the interner state, as maintained by warmup
registration and by EidosGlobalStringIDForString: every registered ID is
below gNextUnusedID, and the forward map is consistent with the reverse
map. -/
def RegistryWF (st : EidosStringRegistry) : Prop :=
  (∀ p ∈ st.gIDToString, p.1 < st.gNextUnusedID) ∧
  (∀ p ∈ st.gStringToID, lookupAssoc st.gIDToString p.2 = some p.1)

/-- Option alternative, used to state lookup decompositions. -/
def optOrElse {α : Type} : Option α → Option α → Option α
  | some x, _ => some x
  | none, b => b

/-- Every value held by one table, across both storages. -/
def ownValues (t : EidosSymbolTable) : List EidosValue :=
  t.internal_symbols_.map Prod.snd ++ t.hash_symbols_.map Prod.snd

/-- The invariant that no table of a chain holds an invisible value. -/
def NoInvisibleChain (chain : SymbolChain) : Prop :=
  ∀ t ∈ chain, ∀ w ∈ ownValues t, w.invisible = false

/-- Storage sanity of a table: while the internal small array is in use,
the hash storage is empty (it only ever gains entries in _SwitchToHash,
which clears the mode flag). -/
def StorageWF (t : EidosSymbolTable) : Prop :=
  t.using_internal_symbols_ = true → t.hash_symbols_ = []

theorem lookupAssoc_append {α β : Type} [DecidableEq α] (l₁ l₂ : List (α × β)) (k : α) :
    lookupAssoc (l₁ ++ l₂) k = optOrElse (lookupAssoc l₁ k) (lookupAssoc l₂ k) := by
  induction l₁ with
  | nil => simp [lookupAssoc, optOrElse]
  | cons e rest ih =>
    obtain ⟨m, w⟩ := e
    by_cases h : m = k <;> simp [lookupAssoc, h, ih, optOrElse]

theorem lookupAssoc_eq_none {α β : Type} [DecidableEq α] (l : List (α × β)) (k : α) :
    lookupAssoc l k = none ↔ k ∉ l.map Prod.fst := by
  induction l with
  | nil => simp [lookupAssoc]
  | cons e rest ih =>
    obtain ⟨m, w⟩ := e
    by_cases h : m = k
    · simp [lookupAssoc, h, ih, eq_comm]
    · simp only [lookupAssoc, if_neg h, List.map_cons, List.mem_cons, ih]
      constructor
      · intro hk hor
        cases hor with
        | inl he => exact h he.symm
        | inr hm => exact hk hm
      · intro hall hm
        exact hall (Or.inr hm)

theorem lookupAssoc_some_mem {α β : Type} [DecidableEq α] {l : List (α × β)} {k : α} {w : β}
    (h : lookupAssoc l k = some w) : (k, w) ∈ l := by
  induction l with
  | nil => cases h
  | cons e rest ih =>
    obtain ⟨m, w0⟩ := e
    by_cases hm : m = k
    · simp [lookupAssoc, hm] at h
      simp [hm, h]
    · simp [lookupAssoc, hm] at h
      exact List.mem_cons_of_mem _ (ih h)

theorem lookupInternalBack_eq_none (l : List (EidosGlobalStringID × EidosValue))
    (k : EidosGlobalStringID) :
    lookupInternalBack l k = none ↔ k ∉ l.map Prod.fst := by
  induction l with
  | nil => simp [lookupInternalBack]
  | cons e rest ih =>
    obtain ⟨m, w⟩ := e
    cases hrec : lookupInternalBack rest k with
    | some v =>
      have hk : k ∈ rest.map Prod.fst := by
        by_contra hk
        have h2 := ih.mpr hk
        rw [hrec] at h2
        cases h2
      simp [lookupInternalBack, hrec, hk]
    | none =>
      have hk := ih.mp hrec
      by_cases h : m = k
      · simp [lookupInternalBack, hrec, h, hk, eq_comm]
      · simp only [lookupInternalBack, hrec, if_neg h, List.map_cons, List.mem_cons]
        constructor
        · intro _ hor
          cases hor with
          | inl he => exact h he.symm
          | inr hm => exact hk hm
        · intro _
          trivial

theorem lookupInternalBack_eq_lookupAssoc {l : List (EidosGlobalStringID × EidosValue)}
    (hnd : (l.map Prod.fst).Nodup) (k : EidosGlobalStringID) :
    lookupInternalBack l k = lookupAssoc l k := by
  induction l with
  | nil => rfl
  | cons e rest ih =>
    obtain ⟨m, w⟩ := e
    simp only [List.map_cons, List.nodup_cons] at hnd
    obtain ⟨hm, hrest⟩ := hnd
    by_cases h : m = k
    · subst h
      have : lookupInternalBack rest m = none := (lookupInternalBack_eq_none rest m).mpr hm
      simp [lookupInternalBack, lookupAssoc, this]
    · simp [lookupInternalBack, lookupAssoc, h, ih hrest]
      cases hrec : lookupInternalBack rest k <;> simp [ih hrest] at hrec <;> simp [hrec]

theorem lookupInternalBack_append_last (l₁ l₂ : List (EidosGlobalStringID × EidosValue))
    (k : EidosGlobalStringID) (v : EidosValue) (h2 : ∀ e ∈ l₂, e.1 ≠ k) :
    lookupInternalBack (l₁ ++ (k, v) :: l₂) k = some v := by
  induction l₁ with
  | nil =>
    have hn : lookupInternalBack l₂ k = none := by
      rw [lookupInternalBack_eq_none]
      intro hk
      obtain ⟨e, he, hek⟩ := List.mem_map.mp hk
      exact h2 e he hek
    simp [lookupInternalBack, hn]
  | cons e rest ih =>
    obtain ⟨m, w⟩ := e
    simp [lookupInternalBack, ih]

theorem lookupInternalBack_concat_self (l : List (EidosGlobalStringID × EidosValue))
    (k : EidosGlobalStringID) (v : EidosValue) :
    lookupInternalBack (l ++ [(k, v)]) k = some v :=
  lookupInternalBack_append_last l [] k v (by simp)

theorem setInternalBack_eq_none (l : List (EidosGlobalStringID × EidosValue))
    (k : EidosGlobalStringID) (v : EidosValue) :
    setInternalBack l k v = none ↔ lookupInternalBack l k = none := by
  induction l with
  | nil => simp [setInternalBack, lookupInternalBack]
  | cons e rest ih =>
    obtain ⟨m, w⟩ := e
    cases hrec : setInternalBack rest k v with
    | some rest2 =>
      have : lookupInternalBack rest k ≠ none := by
        intro hn
        rw [← ih] at hn
        rw [hrec] at hn
        cases hn
      cases hlk : lookupInternalBack rest k with
      | some u => simp [setInternalBack, lookupInternalBack, hrec, hlk]
      | none => exact absurd hlk this
    | none =>
      have hlk : lookupInternalBack rest k = none := ih.mp hrec
      by_cases h : m = k <;> simp [setInternalBack, lookupInternalBack, hrec, hlk, h]

theorem setInternalBack_lookup {l l2 : List (EidosGlobalStringID × EidosValue)}
    {k : EidosGlobalStringID} {v : EidosValue}
    (h : setInternalBack l k v = some l2) : lookupInternalBack l2 k = some v := by
  induction l generalizing l2 with
  | nil => cases h
  | cons e rest ih =>
    obtain ⟨m, w⟩ := e
    cases hrec : setInternalBack rest k v with
    | some rest2 =>
      rw [setInternalBack, hrec] at h
      cases h
      simp [lookupInternalBack, ih hrec]
    | none =>
      rw [setInternalBack, hrec] at h
      by_cases hm : m = k
      · simp [hm] at h
        subst hm
        cases h
        have : lookupInternalBack rest m = none :=
          (setInternalBack_eq_none rest m v).mp hrec
        simp [lookupInternalBack, this]
      · simp [hm] at h

theorem optOrElse_none_right {α : Type} (a : Option α) : optOrElse a none = a := by
  cases a <;> rfl

theorem lookupAssoc_hashInsert {α β : Type} [DecidableEq α] (l : List (α × β)) (k m : α)
    (v : β) :
    lookupAssoc (hashInsert l k v) m =
      optOrElse (lookupAssoc l m) (if m = k then some v else none) := by
  induction l with
  | nil =>
    by_cases hm : m = k
    · simp [hashInsert, lookupAssoc, hm, optOrElse]
    · have : ¬k = m := fun h => hm h.symm
      simp [hashInsert, lookupAssoc, hm, this, optOrElse]
  | cons e rest ih =>
    obtain ⟨m0, w⟩ := e
    by_cases hk : m0 = k
    · subst hk
      by_cases hm : m0 = m
      · subst hm
        simp [hashInsert, lookupAssoc, optOrElse]
      · have hm2 : ¬m = m0 := fun h => hm h.symm
        simp [hashInsert, lookupAssoc, hm, hm2, optOrElse_none_right]
    · by_cases hm : m0 = m
      · subst hm
        simp [hashInsert, lookupAssoc, hk, optOrElse]
      · simp [hashInsert, lookupAssoc, hk, hm, ih]

theorem lookupAssoc_hashInsert_self {α β : Type} [DecidableEq α] {l : List (α × β)} {k : α}
    (v : β) (h : lookupAssoc l k = none) : lookupAssoc (hashInsert l k v) k = some v := by
  rw [lookupAssoc_hashInsert, h]
  simp [optOrElse]

theorem lookupAssoc_hashAssign_self {α β : Type} [DecidableEq α] {l : List (α × β)} {k : α}
    {w : β} (v : β) (h : lookupAssoc l k = some w) :
    lookupAssoc (hashAssign l k v) k = some v := by
  induction l with
  | nil => cases h
  | cons e rest ih =>
    obtain ⟨m0, w0⟩ := e
    by_cases hk : m0 = k
    · subst hk
      simp [hashAssign, lookupAssoc]
    · rw [lookupAssoc, if_neg hk] at h
      simp [hashAssign, lookupAssoc, hk, ih h]

theorem lookupAssoc_foldl_hashInsert {α β : Type} [DecidableEq α] (l h : List (α × β))
    (m : α) :
    lookupAssoc (List.foldl (fun acc e => hashInsert acc e.1 e.2) h l) m =
      optOrElse (lookupAssoc h m) (lookupAssoc l m) := by
  induction l generalizing h with
  | nil => simp [lookupAssoc, optOrElse_none_right]
  | cons e rest ih =>
    obtain ⟨k, v⟩ := e
    rw [List.foldl_cons, ih, lookupAssoc_hashInsert]
    by_cases hm : m = k
    · subst hm
      cases hh : lookupAssoc h m <;>
        simp [lookupAssoc, optOrElse, hh, eq_comm]
    · have hkm : ¬k = m := fun h2 => hm h2.symm
      cases hh : lookupAssoc h m <;>
        simp [lookupAssoc, optOrElse, hh, hm, hkm]

theorem mem_hashInsert {α β : Type} [DecidableEq α] {l : List (α × β)} {k : α} {v : β} :
    ∀ e ∈ hashInsert l k v, e ∈ l ∨ e = (k, v) := by
  induction l with
  | nil =>
    intro e he
    simp [hashInsert] at he
    exact Or.inr he
  | cons p rest ih =>
    obtain ⟨m0, w0⟩ := p
    intro e he
    by_cases hk : m0 = k
    · simp only [hashInsert, if_pos hk] at he
      exact Or.inl he
    · simp only [hashInsert, if_neg hk] at he
      rcases List.mem_cons.mp he with h1 | h1
      · exact Or.inl (List.mem_cons.mpr (Or.inl h1))
      · rcases ih e h1 with h2 | h2
        · exact Or.inl (List.mem_cons.mpr (Or.inr h2))
        · exact Or.inr h2

theorem mem_hashAssign {α β : Type} [DecidableEq α] {l : List (α × β)} {k : α} {v : β} :
    ∀ e ∈ hashAssign l k v, e ∈ l ∨ e = (k, v) := by
  induction l with
  | nil =>
    intro e he
    simp [hashAssign] at he
  | cons p rest ih =>
    obtain ⟨m0, w0⟩ := p
    intro e he
    by_cases hk : m0 = k
    · simp only [hashAssign, if_pos hk] at he
      rcases List.mem_cons.mp he with h1 | h1
      · subst hk
        exact Or.inr (by rw [h1])
      · exact Or.inl (List.mem_cons.mpr (Or.inr h1))
    · simp only [hashAssign, if_neg hk] at he
      rcases List.mem_cons.mp he with h1 | h1
      · exact Or.inl (List.mem_cons.mpr (Or.inl h1))
      · rcases ih e h1 with h2 | h2
        · exact Or.inl (List.mem_cons.mpr (Or.inr h2))
        · exact Or.inr h2

theorem mem_foldl_hashInsert {α β : Type} [DecidableEq α] {l h : List (α × β)} :
    ∀ e ∈ List.foldl (fun acc e => hashInsert acc e.1 e.2) h l, e ∈ h ∨ e ∈ l := by
  induction l generalizing h with
  | nil =>
    intro e he
    exact Or.inl he
  | cons p rest ih =>
    obtain ⟨k, v⟩ := p
    intro e he
    rw [List.foldl_cons] at he
    rcases ih e he with h1 | h1
    · rcases mem_hashInsert e h1 with h2 | h2
      · exact Or.inl h2
      · exact Or.inr (List.mem_cons.mpr (Or.inl h2))
    · exact Or.inr (List.mem_cons.mpr (Or.inr h1))

theorem mem_setInternalBack {l l2 : List (EidosGlobalStringID × EidosValue)}
    {k : EidosGlobalStringID} {v : EidosValue}
    (h : setInternalBack l k v = some l2) : ∀ e ∈ l2, e ∈ l ∨ e = (k, v) := by
  induction l generalizing l2 with
  | nil => cases h
  | cons p rest ih =>
    obtain ⟨m0, w0⟩ := p
    intro e he
    cases hrec : setInternalBack rest k v with
    | some rest2 =>
      rw [setInternalBack, hrec] at h
      cases h
      rcases List.mem_cons.mp he with h1 | h1
      · exact Or.inl (List.mem_cons.mpr (Or.inl h1))
      · rcases ih hrec e h1 with h2 | h2
        · exact Or.inl (List.mem_cons.mpr (Or.inr h2))
        · exact Or.inr h2
    | none =>
      rw [setInternalBack, hrec] at h
      by_cases hk : m0 = k
      · rw [if_pos hk] at h
        cases h
        rcases List.mem_cons.mp he with h1 | h1
        · subst hk
          exact Or.inr (by rw [h1])
        · exact Or.inl (List.mem_cons.mpr (Or.inr h1))
      · rw [if_neg hk] at h
        cases h

theorem mem_fst_hashInsert {α β : Type} [DecidableEq α] (l : List (α × β)) (k m : α) (v : β) :
    m ∈ (hashInsert l k v).map Prod.fst ↔ m ∈ l.map Prod.fst ∨ m = k := by
  induction l with
  | nil => simp [hashInsert]
  | cons e rest ih =>
    obtain ⟨m0, w⟩ := e
    by_cases hk : m0 = k
    · subst hk
      constructor
      · intro h2
        rw [hashInsert, if_pos rfl] at h2
        exact Or.inl h2
      · intro h2
        rw [hashInsert, if_pos rfl]
        cases h2 with
        | inl h2 => exact h2
        | inr h2 => simp [h2]
    · rw [hashInsert, if_neg hk]
      simp only [List.map_cons, List.mem_cons, ih, or_assoc]

theorem mem_fst_foldl_hashInsert {α β : Type} [DecidableEq α] (l h : List (α × β)) (m : α) :
    m ∈ (List.foldl (fun acc e => hashInsert acc e.1 e.2) h l).map Prod.fst ↔
      m ∈ h.map Prod.fst ∨ m ∈ l.map Prod.fst := by
  induction l generalizing h with
  | nil => simp
  | cons e rest ih =>
    obtain ⟨k, v⟩ := e
    rw [List.foldl_cons, ih, mem_fst_hashInsert]
    simp only [List.map_cons, List.mem_cons]
    constructor
    · intro h2
      rcases h2 with (h2 | h2) | h2
      · exact Or.inl h2
      · exact Or.inr (Or.inl h2)
      · exact Or.inr (Or.inr h2)
    · intro h2
      rcases h2 with h2 | h2 | h2
      · exact Or.inl (Or.inl h2)
      · exact Or.inl (Or.inr h2)
      · exact Or.inr h2

theorem lookupAssoc_hashErase_self {α β : Type} [DecidableEq α] {l : List (α × β)}
    (hnd : (l.map Prod.fst).Nodup) (k : α) : lookupAssoc (hashErase l k) k = none := by
  induction l with
  | nil => rfl
  | cons e rest ih =>
    obtain ⟨m0, w0⟩ := e
    simp only [List.map_cons, List.nodup_cons] at hnd
    obtain ⟨hm, hrest⟩ := hnd
    by_cases hk : m0 = k
    · subst hk
      rw [hashErase, if_pos rfl]
      exact (lookupAssoc_eq_none rest m0).mpr hm
    · rw [hashErase, if_neg hk, lookupAssoc, if_neg hk]
      exact ih hrest

theorem findBackSlot_eq_none (l : List (EidosGlobalStringID × EidosValue))
    (k : EidosGlobalStringID) :
    findBackSlot l k = none ↔ lookupInternalBack l k = none := by
  induction l with
  | nil => simp [findBackSlot, lookupInternalBack]
  | cons e rest ih =>
    obtain ⟨m0, w0⟩ := e
    cases hrec : findBackSlot rest k with
    | some i =>
      have : lookupInternalBack rest k ≠ none := by
        intro hn
        have h2 := ih.mpr hn
        rw [hrec] at h2
        cases h2
      cases hlk : lookupInternalBack rest k with
      | some u => simp [findBackSlot, lookupInternalBack, hrec, hlk]
      | none => exact absurd hlk this
    | none =>
      have hlk := ih.mp hrec
      by_cases h : m0 = k <;> simp [findBackSlot, lookupInternalBack, hrec, hlk, h]

theorem findBackSlot_decomp {l : List (EidosGlobalStringID × EidosValue)}
    {k : EidosGlobalStringID} {i : Nat} (h : findBackSlot l k = some i) :
    ∃ l₁ w l₂, l = l₁ ++ (k, w) :: l₂ ∧ l₁.length = i ∧ k ∉ l₂.map Prod.fst := by
  induction l generalizing i with
  | nil => cases h
  | cons e rest ih =>
    obtain ⟨m0, w0⟩ := e
    cases hrec : findBackSlot rest k with
    | some j =>
      rw [findBackSlot, hrec] at h
      injection h with h
      obtain ⟨l₁, w, l₂, hdec, hlen, hmem⟩ := ih hrec
      exact ⟨(m0, w0) :: l₁, w, l₂, by rw [hdec]; rfl, by simp [hlen, h], hmem⟩
    | none =>
      rw [findBackSlot, hrec] at h
      by_cases hm : m0 = k
      · rw [if_pos hm] at h
        injection h with h
        subst hm
        refine ⟨[], w0, rest, rfl, by simp [h], ?_⟩
        have := (findBackSlot_eq_none rest m0).mp hrec
        exact (lookupInternalBack_eq_none rest m0).mp this
      · rw [if_neg hm] at h
        cases h

theorem setAppendLength {α : Type} (l₁ l₂ : List α) (x y : α) :
    (l₁ ++ x :: l₂).set l₁.length y = l₁ ++ y :: l₂ := by
  induction l₁ with
  | nil => rfl
  | cons a rest ih => simp [List.set, ih]

theorem removeAtBackfill_not_mem (l₁ l₂ : List (EidosGlobalStringID × EidosValue))
    (k : EidosGlobalStringID) (w : EidosValue)
    (h1 : k ∉ l₁.map Prod.fst) (h2 : k ∉ l₂.map Prod.fst) :
    k ∉ (removeAtBackfill (l₁ ++ (k, w) :: l₂) l₁.length).map Prod.fst := by
  rcases List.eq_nil_or_concat l₂ with rfl | ⟨init, last, rfl⟩
  · have hg : (l₁ ++ (k, w) :: ([] : List (EidosGlobalStringID × EidosValue))).getLast? =
        some (k, w) := List.getLast?_concat _
    simp only [removeAtBackfill, hg]
    rw [setAppendLength]
    have : l₁ ++ (k, w) :: ([] : List (EidosGlobalStringID × EidosValue)) = l₁ ++ [(k, w)] :=
      rfl
    rw [this, List.dropLast_concat]
    exact h1
  · simp only [List.concat_eq_append] at h2 ⊢
    have hshape : l₁ ++ (k, w) :: (init ++ [last]) = (l₁ ++ (k, w) :: init) ++ [last] := by
      simp
    have hg : (l₁ ++ (k, w) :: (init ++ [last])).getLast? = some last := by
      rw [hshape, List.getLast?_concat]
    simp only [removeAtBackfill, hg]
    rw [setAppendLength]
    have hshape2 : l₁ ++ last :: (init ++ [last]) = (l₁ ++ last :: init) ++ [last] := by
      simp
    rw [hshape2, List.dropLast_concat]
    intro hk
    rw [List.map_append, List.mem_append] at hk
    rcases hk with hk | hk
    · exact h1 hk
    · rw [List.map_cons, List.mem_cons] at hk
      rcases hk with hk | hk
      · apply h2
        rw [hk]
        exact List.mem_map_of_mem Prod.fst (List.mem_append.mpr (Or.inr (List.mem_singleton.mpr rfl)))
      · apply h2
        rw [List.map_append, List.mem_append]
        exact Or.inl hk

theorem getValue_append_none {pre rest : SymbolChain} {k : EidosGlobalStringID}
    (h : ∀ s ∈ pre, ownLookup s k = none) :
    _GetValue (pre ++ rest) k = _GetValue rest k := by
  induction pre with
  | nil => rfl
  | cons t ts ih =>
    have ht := h t (List.mem_cons_self t ts)
    rw [List.cons_append]
    simp only [_GetValue, ht]
    exact ih (fun s hs => h s (List.mem_cons_of_mem _ hs))

theorem getValue_eq_none_iff (chain : SymbolChain) (k : EidosGlobalStringID) :
    _GetValue chain k = none ↔ ∀ s ∈ chain, ownLookup s k = none := by
  induction chain with
  | nil => simp [_GetValue]
  | cons t ts ih =>
    cases ht : ownLookup t k with
    | some v => simp [_GetValue, ht]
    | none => simp [_GetValue, ht, ih]

theorem contains_eq_isSome (chain : SymbolChain) (k : EidosGlobalStringID) :
    ContainsSymbol chain k = (_GetValue chain k).isSome := by
  induction chain with
  | nil => rfl
  | cons t ts ih =>
    cases ht : ownLookup t k with
    | some v => simp [ContainsSymbol, _GetValue, ht]
    | none => simp [ContainsSymbol, _GetValue, ht, ih]

theorem setHashPhase_none_iff (t : EidosSymbolTable) (parents : SymbolChain)
    (k : EidosGlobalStringID) (v : EidosValue) :
    setHashPhase t parents k v = none ↔
      lookupAssoc t.hash_symbols_ k = none ∧ ContainsSymbol parents k = true := by
  unfold setHashPhase
  cases hl : lookupAssoc t.hash_symbols_ k with
  | none =>
    by_cases hc : ContainsSymbol parents k = true <;> simp [hc]
  | some w => simp

theorem setHashPhase_some {t : EidosSymbolTable} {parents : SymbolChain}
    {k : EidosGlobalStringID} {v : EidosValue} {t' : EidosSymbolTable} {p' : SymbolChain}
    (h : setHashPhase t parents k v = some (t', p')) :
    p' = parents ∧ lookupAssoc t'.hash_symbols_ k = some v ∧
      t'.using_internal_symbols_ = t.using_internal_symbols_ ∧
      t'.table_type_ = t.table_type_ ∧
      t'.internal_symbols_ = t.internal_symbols_ ∧
      ∀ e ∈ t'.hash_symbols_, e ∈ t.hash_symbols_ ∨ e = (k, v) := by
  unfold setHashPhase at h
  cases hl : lookupAssoc t.hash_symbols_ k with
  | none =>
    rw [hl] at h
    by_cases hc : ContainsSymbol parents k = true
    · rw [if_pos hc] at h
      cases h
    · rw [if_neg hc] at h
      simp only [Option.some.injEq, Prod.mk.injEq] at h
      obtain ⟨h1, h2⟩ := h
      subst h1
      subst h2
      exact ⟨rfl, lookupAssoc_hashInsert_self v hl, rfl, rfl, rfl,
        fun e he => mem_hashInsert e he⟩
  | some w =>
    rw [hl] at h
    simp only [Option.some.injEq, Prod.mk.injEq] at h
    obtain ⟨h1, h2⟩ := h
    subst h1
    subst h2
    exact ⟨rfl, lookupAssoc_hashAssign_self v hl, rfl, rfl, rfl,
      fun e he => mem_hashAssign e he⟩

theorem setCore_none_iff (cap : Nat) (t : EidosSymbolTable) (parents : SymbolChain)
    (k : EidosGlobalStringID) (v : EidosValue) :
    setCore cap t parents k v = none ↔
      ownLookup t k = none ∧ ContainsSymbol parents k = true := by
  unfold setCore
  cases hu : t.using_internal_symbols_ with
  | false =>
    simp only [hu, Bool.false_eq_true, if_false]
    rw [setHashPhase_none_iff]
    simp [ownLookup, hu]
  | true =>
    simp only [hu, if_true]
    cases hs : setInternalBack t.internal_symbols_ k v with
    | some l2 =>
      have hne : lookupInternalBack t.internal_symbols_ k ≠ none := by
        intro hn
        have h2 := (setInternalBack_eq_none t.internal_symbols_ k v).mpr hn
        rw [hs] at h2
        cases h2
      simp [ownLookup, hu, hne]
    | none =>
      have hlk : lookupInternalBack t.internal_symbols_ k = none :=
        (setInternalBack_eq_none _ _ _).mp hs
      by_cases hc : ContainsSymbol parents k = true
      · simp [hc, ownLookup, hu, hlk]
      · by_cases hcap : t.internal_symbols_.length < cap
        · simp [hc, hcap, ownLookup, hu, hlk]
        · rw [if_neg hc, if_neg hcap, setHashPhase_none_iff]
          simp [hc]

theorem setCore_some (cap : Nat) {t : EidosSymbolTable} {parents : SymbolChain}
    {k : EidosGlobalStringID} {v : EidosValue} {t' : EidosSymbolTable} {p' : SymbolChain}
    (h : setCore cap t parents k v = some (t', p')) :
    p' = parents ∧ ownLookup t' k = some v ∧
      (∀ e ∈ t'.internal_symbols_, e ∈ t.internal_symbols_ ∨ e = (k, v)) ∧
      (∀ e ∈ t'.hash_symbols_, e ∈ t.hash_symbols_ ∨ e ∈ t.internal_symbols_ ∨ e = (k, v)) ∧
      (t.using_internal_symbols_ = false → t'.using_internal_symbols_ = false) := by
  unfold setCore at h
  cases hu : t.using_internal_symbols_ with
  | false =>
    rw [hu] at h
    simp only [Bool.false_eq_true, if_false] at h
    obtain ⟨hp, hlook, husing, _, hint, hhash⟩ := setHashPhase_some h
    refine ⟨hp, ?_, ?_, ?_, ?_⟩
    · rw [ownLookup, husing, hu]
      simp [hlook]
    · intro e he
      rw [hint] at he
      exact Or.inl he
    · intro e he
      rcases hhash e he with h2 | h2
      · exact Or.inl h2
      · exact Or.inr (Or.inr h2)
    · intro _
      rw [husing, hu]
  | true =>
    rw [hu] at h
    simp only [if_true] at h
    cases hs : setInternalBack t.internal_symbols_ k v with
    | some l2 =>
      rw [hs] at h
      simp only [Option.some.injEq, Prod.mk.injEq] at h
      obtain ⟨h1, h2⟩ := h
      subst h1
      subst h2
      refine ⟨rfl, ?_, ?_, ?_, ?_⟩
      · rw [ownLookup]
        simp only [hu, if_true]
        exact setInternalBack_lookup hs
      · intro e he
        exact mem_setInternalBack hs e he
      · intro e he
        exact Or.inl he
      · intro hfalse
        exact Bool.noConfusion hfalse
    | none =>
      rw [hs] at h
      by_cases hc : ContainsSymbol parents k = true
      · rw [if_pos hc] at h
        cases h
      · rw [if_neg hc] at h
        by_cases hcap : t.internal_symbols_.length < cap
        · rw [if_pos hcap] at h
          simp only [Option.some.injEq, Prod.mk.injEq] at h
          obtain ⟨h1, h2⟩ := h
          subst h1
          subst h2
          refine ⟨rfl, ?_, ?_, ?_, ?_⟩
          · rw [ownLookup]
            simp only [hu, if_true]
            exact lookupInternalBack_concat_self t.internal_symbols_ k v
          · intro e he
            rcases List.mem_append.mp he with h2 | h2
            · exact Or.inl h2
            · exact Or.inr (List.mem_singleton.mp h2)
          · intro e he
            exact Or.inl he
          · intro hfalse
            exact Bool.noConfusion hfalse
        · rw [if_neg hcap] at h
          obtain ⟨hp, hlook, husing, _, hint, hhash⟩ := setHashPhase_some h
          have hsw : _SwitchToHash t =
              { t with
                hash_symbols_ := t.internal_symbols_.foldl
                  (fun acc e => hashInsert acc e.1 e.2) t.hash_symbols_,
                internal_symbols_ := [],
                using_internal_symbols_ := false } := by
            rw [_SwitchToHash, if_pos hu]
          refine ⟨hp, ?_, ?_, ?_, ?_⟩
          · rw [ownLookup, husing, hsw]
            simp [hlook]
          · intro e he
            rw [hint, hsw] at he
            cases he
          · intro e he
            rcases hhash e he with h2 | h2
            · rw [hsw] at h2
              simp only at h2
              rcases mem_foldl_hashInsert e h2 with h3 | h3
              · exact Or.inl h3
              · exact Or.inr (Or.inl h3)
            · exact Or.inr (Or.inr h2)
          · intro hfalse
            exact Bool.noConfusion hfalse

/-- C1: for every symbol table chain S and name id n, GetValue returns
the value bound to n in the nearest table of the chain holding n,
searching own storage before the parent and the internal array
back-to-front (the last slot bearing the name wins), and when no table
of the chain holds n it yields the undefined-identifier failure (none)
instead of returning a value. -/
theorem C1_getValue_nearest_scope (chain : SymbolChain) (n : EidosGlobalStringID) :
    (∀ (pre : SymbolChain) (t : EidosSymbolTable) (post : SymbolChain) (v : EidosValue),
        (∀ s ∈ pre, ownLookup s n = none) → ownLookup t n = some v →
        _GetValue (pre ++ t :: post) n = some v) ∧
    (∀ (t : EidosSymbolTable) (l₁ l₂ : List (EidosGlobalStringID × EidosValue))
        (v : EidosValue),
        t.using_internal_symbols_ = true →
        t.internal_symbols_ = l₁ ++ (n, v) :: l₂ → (∀ e ∈ l₂, e.1 ≠ n) →
        ownLookup t n = some v) ∧
    ((∀ s ∈ chain, ownLookup s n = none) → _GetValue chain n = none) := by
  refine ⟨?_, ?_, ?_⟩
  · intro pre t post v hpre hown
    rw [getValue_append_none hpre]
    simp [_GetValue, hown]
  · intro t l₁ l₂ v hu hint h2
    rw [ownLookup, hu]
    simp only [if_true]
    rw [hint]
    exact lookupInternalBack_append_last l₁ l₂ n v h2
  · intro hall
    exact (getValue_eq_none_iff chain n).mpr hall

theorem C1_witness :
    _GetValue
      [⟨EidosSymbolTableType.kVariablesTable, true, [(5, ⟨50, false, 1⟩)], []⟩,
       ⟨EidosSymbolTableType.kEidosIntrinsicConstantsTable, true, [(7, ⟨31, false, 1⟩)], []⟩]
      7 = some ⟨31, false, 1⟩ ∧
    ownLookup
      ⟨EidosSymbolTableType.kVariablesTable, true,
        [(3, ⟨1, false, 1⟩), (3, ⟨2, false, 1⟩)], []⟩ 3 = some ⟨2, false, 1⟩ ∧
    _GetValue [⟨EidosSymbolTableType.kVariablesTable, true, [(5, ⟨50, false, 1⟩)], []⟩] 9 =
      none := by
  refine ⟨?_, ?_, ?_⟩
  · exact (C1_getValue_nearest_scope [] 7).1
      [⟨EidosSymbolTableType.kVariablesTable, true, [(5, ⟨50, false, 1⟩)], []⟩]
      ⟨EidosSymbolTableType.kEidosIntrinsicConstantsTable, true, [(7, ⟨31, false, 1⟩)], []⟩
      [] ⟨31, false, 1⟩ (by decide) (by decide)
  · exact (C1_getValue_nearest_scope [] 3).2.1
      ⟨EidosSymbolTableType.kVariablesTable, true,
        [(3, ⟨1, false, 1⟩), (3, ⟨2, false, 1⟩)], []⟩
      [(3, ⟨1, false, 1⟩)] [] ⟨2, false, 1⟩ rfl rfl (by decide)
  · exact (C1_getValue_nearest_scope
      [⟨EidosSymbolTableType.kVariablesTable, true, [(5, ⟨50, false, 1⟩)], []⟩] 9).2.2
      (by decide)

/-- C2: for a Variables table V over a parent chain, SetValueForSymbol
fails with the redefinition-of-constant diagnostic exactly when the name
is not bound locally in V but is bound somewhere in the parent chain; on
failure nothing is changed (the model returns none and leaves every
table as it was, matching the C++ code, which raises before any write),
and otherwise the call upserts the possibly-copied value into V and
leaves the parents untouched. -/
theorem C2_set_fails_iff_constant (cap : Nat) (t : EidosSymbolTable)
    (parents : SymbolChain) (n : EidosGlobalStringID) (v : EidosValue)
    (_hvar : t.table_type_ = EidosSymbolTableType.kVariablesTable) :
    (SetValueForSymbol cap t parents n v = none ↔
      ownLookup t n = none ∧ ContainsSymbol parents n = true) ∧
    (∀ t' p', SetValueForSymbol cap t parents n v = some (t', p') →
      p' = parents ∧ ownLookup t' n = some (storeValue v)) := by
  constructor
  · rw [SetValueForSymbol]
    exact setCore_none_iff cap t parents n (storeValue v)
  · intro t' p' h
    rw [SetValueForSymbol] at h
    obtain ⟨hp, hl, _⟩ := setCore_some cap h
    exact ⟨hp, hl⟩

theorem C2_witness :
    SetValueForSymbol 30 ⟨EidosSymbolTableType.kVariablesTable, true, [], []⟩
      [⟨EidosSymbolTableType.kEidosIntrinsicConstantsTable, true, [(70, ⟨314, false, 1⟩)], []⟩]
      70 ⟨4, false, 1⟩ = none ∧
    _GetValue
      [⟨EidosSymbolTableType.kVariablesTable, true, [], []⟩,
       ⟨EidosSymbolTableType.kEidosIntrinsicConstantsTable, true, [(70, ⟨314, false, 1⟩)], []⟩]
      70 = some ⟨314, false, 1⟩ ∧
    (∃ t' p', SetValueForSymbol 30 ⟨EidosSymbolTableType.kVariablesTable, true, [], []⟩ []
      4 ⟨9, false, 1⟩ = some (t', p') ∧ ownLookup t' 4 = some ⟨9, false, 1⟩) := by
  refine ⟨?_, by decide, ?_⟩
  · exact (C2_set_fails_iff_constant 30 ⟨EidosSymbolTableType.kVariablesTable, true, [], []⟩
      [⟨EidosSymbolTableType.kEidosIntrinsicConstantsTable, true, [(70, ⟨314, false, 1⟩)], []⟩]
      70 ⟨4, false, 1⟩ rfl).1.mpr (by decide)
  · refine ⟨⟨EidosSymbolTableType.kVariablesTable, true, [(4, ⟨9, false, 1⟩)], []⟩, [],
      by decide, ?_⟩
    exact ((C2_set_fails_iff_constant 30 ⟨EidosSymbolTableType.kVariablesTable, true, [], []⟩
      [] 4 ⟨9, false, 1⟩ rfl).2
      ⟨EidosSymbolTableType.kVariablesTable, true, [(4, ⟨9, false, 1⟩)], []⟩ [] (by decide)).2

/-- C3: for a table in small-array storage whose array already holds the
capacity of entries, inserting a new binding performs the one-way
migration to hash storage; the migration preserves every existing
binding (GetValue is unchanged on every previously inserted name, and
the set of enumerated names only gains the new name), the new binding is
present, and once a table is in hash storage no insertion ever brings it
back to array storage. -/
theorem C3_switch_to_hash_preserves (cap : Nat) (t : EidosSymbolTable)
    (parents : SymbolChain) (n : EidosGlobalStringID) (v : EidosValue)
    (hu : t.using_internal_symbols_ = true)
    (hwf : StorageWF t)
    (hfull : ¬t.internal_symbols_.length < cap)
    (hnd : (t.internal_symbols_.map Prod.fst).Nodup)
    (hnew : ownLookup t n = none)
    (hpar : ContainsSymbol parents n = false) :
    ∃ t', SetValueForSymbol cap t parents n v = some (t', parents) ∧
      t'.using_internal_symbols_ = false ∧
      (∀ m, m ≠ n → ownLookup t' m = ownLookup t m) ∧
      ownLookup t' n = some (storeValue v) ∧
      (∀ m, m ∈ ownNames t' ↔ m ∈ ownNames t ∨ m = n) ∧
      (∀ (cap2 : Nat) (t2 : EidosSymbolTable) (p2 : SymbolChain)
        (m : EidosGlobalStringID) (w : EidosValue) (t3 : EidosSymbolTable)
        (p3 : SymbolChain),
        t2.using_internal_symbols_ = false →
        SetValueForSymbol cap2 t2 p2 m w = some (t3, p3) →
        t3.using_internal_symbols_ = false) := by
  have hlb : lookupInternalBack t.internal_symbols_ n = none := by
    rw [ownLookup, hu] at hnew
    simpa using hnew
  have hsib : setInternalBack t.internal_symbols_ n (storeValue v) = none :=
    (setInternalBack_eq_none _ _ _).mpr hlb
  have hla : lookupAssoc t.internal_symbols_ n = none := by
    rw [← lookupInternalBack_eq_lookupAssoc hnd]
    exact hlb
  have hHn : lookupAssoc
      (List.foldl (fun acc e => hashInsert acc e.1 e.2) t.hash_symbols_ t.internal_symbols_)
      n = none := by
    rw [lookupAssoc_foldl_hashInsert, hwf hu, hla]
    rfl
  have hswt : _SwitchToHash t = ⟨t.table_type_, false, [],
      List.foldl (fun acc e => hashInsert acc e.1 e.2) t.hash_symbols_
        t.internal_symbols_⟩ := by
    rw [_SwitchToHash, if_pos hu]
  have hstep : SetValueForSymbol cap t parents n v =
      setHashPhase (_SwitchToHash t) parents n (storeValue v) := by
    rw [SetValueForSymbol]
    unfold setCore
    rw [hu]
    simp only [if_true, hsib, hpar, Bool.false_eq_true, if_false, hfull]
  have hphase : setHashPhase (_SwitchToHash t) parents n (storeValue v) =
      some (⟨t.table_type_, false, [],
        hashInsert
          (List.foldl (fun acc e => hashInsert acc e.1 e.2) t.hash_symbols_
            t.internal_symbols_) n (storeValue v)⟩, parents) := by
    rw [hswt]
    unfold setHashPhase
    simp only [hHn, hpar, Bool.false_eq_true, if_false]
  refine ⟨⟨t.table_type_, false, [],
      hashInsert
        (List.foldl (fun acc e => hashInsert acc e.1 e.2) t.hash_symbols_
          t.internal_symbols_) n (storeValue v)⟩,
    by rw [hstep, hphase], rfl, ?_, ?_, ?_, ?_⟩
  · intro m hm
    show lookupAssoc _ m = ownLookup t m
    rw [lookupAssoc_hashInsert, if_neg hm, optOrElse_none_right,
      lookupAssoc_foldl_hashInsert, hwf hu, ownLookup, hu]
    simp [optOrElse, lookupAssoc, lookupInternalBack_eq_lookupAssoc hnd]
  · exact lookupAssoc_hashInsert_self (storeValue v) hHn
  · intro m
    show m ∈ List.map Prod.fst _ ↔ _
    rw [mem_fst_hashInsert, mem_fst_foldl_hashInsert, hwf hu, ownNames, hu]
    simp
  · intro cap2 t2 p2 m w t3 p3 h2 hset2
    rw [SetValueForSymbol] at hset2
    exact (setCore_some cap2 hset2).2.2.2.2 h2

theorem C3_witness :
    ∃ t', SetValueForSymbol 2
        ⟨EidosSymbolTableType.kVariablesTable, true,
          [(1, ⟨10, false, 1⟩), (2, ⟨20, false, 1⟩)], []⟩ [] 3 ⟨7, false, 1⟩ =
        some (t', []) ∧
      t'.using_internal_symbols_ = false ∧
      ownLookup t' 1 = some ⟨10, false, 1⟩ ∧
      ownLookup t' 2 = some ⟨20, false, 1⟩ ∧
      ownLookup t' 3 = some ⟨7, false, 1⟩ := by
  obtain ⟨t', hset, hu, hpres, hn, _, _⟩ := C3_switch_to_hash_preserves 2
    ⟨EidosSymbolTableType.kVariablesTable, true,
      [(1, ⟨10, false, 1⟩), (2, ⟨20, false, 1⟩)], []⟩ [] 3 ⟨7, false, 1⟩
    rfl (fun _ => rfl) (by decide) (by decide) (by decide) (by decide)
  refine ⟨t', hset, hu, ?_, ?_, ?_⟩
  · rw [hpres 1 (by decide)]
    decide
  · rw [hpres 2 (by decide)]
    decide
  · rw [hn]
    decide

theorem snd_mem_ownValues_internal {t : EidosSymbolTable} {e : EidosGlobalStringID × EidosValue}
    (h : e ∈ t.internal_symbols_) : e.2 ∈ ownValues t :=
  List.mem_append.mpr (Or.inl (List.mem_map_of_mem _ h))

theorem snd_mem_ownValues_hash {t : EidosSymbolTable} {e : EidosGlobalStringID × EidosValue}
    (h : e ∈ t.hash_symbols_) : e.2 ∈ ownValues t :=
  List.mem_append.mpr (Or.inr (List.mem_map_of_mem _ h))

theorem setCore_values (cap : Nat) {t : EidosSymbolTable} {parents : SymbolChain}
    {k : EidosGlobalStringID} {v : EidosValue} {t' : EidosSymbolTable} {p' : SymbolChain}
    (h : setCore cap t parents k v = some (t', p')) :
    ∀ w ∈ ownValues t', w ∈ ownValues t ∨ w = v := by
  obtain ⟨-, -, hint, hhash, -⟩ := setCore_some cap h
  intro w hw
  rcases List.mem_append.mp hw with hw | hw
  · rcases List.mem_map.mp hw with ⟨e, he, rfl⟩
    rcases hint e he with h2 | h2
    · exact Or.inl (snd_mem_ownValues_internal h2)
    · rw [h2]
      exact Or.inr rfl
  · rcases List.mem_map.mp hw with ⟨e, he, rfl⟩
    rcases hhash e he with h2 | h2 | h2
    · exact Or.inl (snd_mem_ownValues_hash h2)
    · exact Or.inl (snd_mem_ownValues_internal h2)
    · rw [h2]
      exact Or.inr rfl

theorem storeValue_not_invisible (v : EidosValue) : (storeValue v).invisible = false := by
  by_cases hc : v.use_count ≠ 1 ∨ v.invisible = true
  · rw [storeValue, if_pos hc]
    rfl
  · rw [storeValue, if_neg hc]
    push_neg at hc
    exact Bool.not_eq_true _ |>.mp hc.2

theorem initEntry_fields (cap : Nat) (t : EidosSymbolTable) (k : EidosGlobalStringID)
    (v : EidosValue) :
    (∀ e ∈ (_InitializeConstantSymbolEntry cap t k v).internal_symbols_,
      e ∈ t.internal_symbols_ ∨ e = (k, v)) ∧
    (∀ e ∈ (_InitializeConstantSymbolEntry cap t k v).hash_symbols_,
      e ∈ t.hash_symbols_ ∨ e ∈ t.internal_symbols_ ∨ e = (k, v)) := by
  unfold _InitializeConstantSymbolEntry
  cases hu : t.using_internal_symbols_ with
  | false =>
    simp only [Bool.false_eq_true, if_false]
    constructor
    · intro e he
      exact Or.inl he
    · intro e he
      rcases mem_hashInsert e he with h2 | h2
      · exact Or.inl h2
      · exact Or.inr (Or.inr h2)
  | true =>
    simp only [if_true]
    by_cases hcap : t.internal_symbols_.length < cap
    · rw [if_pos hcap]
      constructor
      · intro e he
        rcases List.mem_append.mp he with h2 | h2
        · exact Or.inl h2
        · exact Or.inr (List.mem_singleton.mp h2)
      · intro e he
        exact Or.inl he
    · rw [if_neg hcap]
      have hswt : _SwitchToHash t = ⟨t.table_type_, false, [],
          List.foldl (fun acc e => hashInsert acc e.1 e.2) t.hash_symbols_
            t.internal_symbols_⟩ := by
        rw [_SwitchToHash, if_pos hu]
      rw [hswt]
      constructor
      · intro e he
        cases he
      · intro e he
        rcases mem_hashInsert e he with h2 | h2
        · rcases mem_foldl_hashInsert e h2 with h3 | h3
          · exact Or.inl h3
          · exact Or.inr (Or.inl h3)
        · exact Or.inr (Or.inr h2)

theorem initEntry_values (cap : Nat) (t : EidosSymbolTable) (k : EidosGlobalStringID)
    (v : EidosValue) :
    ∀ w ∈ ownValues (_InitializeConstantSymbolEntry cap t k v), w ∈ ownValues t ∨ w = v := by
  intro w hw
  obtain ⟨hint, hhash⟩ := initEntry_fields cap t k v
  rcases List.mem_append.mp hw with hw | hw
  · rcases List.mem_map.mp hw with ⟨e, he, rfl⟩
    rcases hint e he with h2 | h2
    · exact Or.inl (snd_mem_ownValues_internal h2)
    · rw [h2]
      exact Or.inr rfl
  · rcases List.mem_map.mp hw with ⟨e, he, rfl⟩
    rcases hhash e he with h2 | h2 | h2
    · exact Or.inl (snd_mem_ownValues_hash h2)
    · exact Or.inl (snd_mem_ownValues_internal h2)
    · rw [h2]
      exact Or.inr rfl

theorem initEntry_lookup (cap : Nat) {t : EidosSymbolTable} {k : EidosGlobalStringID}
    (v : EidosValue) (hwf : StorageWF t) (hnone : ownLookup t k = none) :
    ownLookup (_InitializeConstantSymbolEntry cap t k v) k = some v := by
  unfold _InitializeConstantSymbolEntry
  cases hu : t.using_internal_symbols_ with
  | false =>
    simp only [Bool.false_eq_true, if_false]
    rw [ownLookup, hu] at hnone
    simp only [Bool.false_eq_true, if_false] at hnone
    rw [ownLookup]
    simp only [hu, Bool.false_eq_true, if_false]
    exact lookupAssoc_hashInsert_self v hnone
  | true =>
    simp only [if_true]
    have hlb : lookupInternalBack t.internal_symbols_ k = none := by
      rw [ownLookup, hu] at hnone
      simpa using hnone
    by_cases hcap : t.internal_symbols_.length < cap
    · rw [if_pos hcap, ownLookup]
      simp only [hu, if_true]
      exact lookupInternalBack_concat_self t.internal_symbols_ k v
    · rw [if_neg hcap]
      have hswt : _SwitchToHash t = ⟨t.table_type_, false, [],
          List.foldl (fun acc e => hashInsert acc e.1 e.2) t.hash_symbols_
            t.internal_symbols_⟩ := by
        rw [_SwitchToHash, if_pos hu]
      rw [hswt, ownLookup]
      simp only [Bool.false_eq_true, if_false]
      apply lookupAssoc_hashInsert_self
      rw [lookupAssoc_foldl_hashInsert, hwf hu]
      have hla : lookupAssoc t.internal_symbols_ k = none :=
        (lookupAssoc_eq_none _ _).mpr ((lookupInternalBack_eq_none _ _).mp hlb)
      rw [hla]
      rfl

theorem defineConstant_values (cap : Nat) {chain chain' : SymbolChain}
    {n : EidosGlobalStringID} {v : EidosValue}
    (h : DefineConstantForSymbol cap chain n v = some chain') :
    ∀ s ∈ chain', ∀ w ∈ ownValues s,
      (∃ s0 ∈ chain, w ∈ ownValues s0) ∨ w = storeValue v := by
  unfold DefineConstantForSymbol at h
  by_cases hc : ContainsSymbol chain n = true
  · rw [if_pos hc] at h
    cases h
  · rw [if_neg hc] at h
    simp only at h
    cases hdc : findDefinedConstantsIdx chain with
    | some i =>
      rw [hdc] at h
      simp only at h
      cases hget : chain[i]? with
      | none =>
        rw [hget] at h
        cases h
      | some ti =>
        rw [hget] at h
        simp only [Option.some.injEq] at h
        subst h
        intro s hs w hw
        rcases List.mem_or_eq_of_mem_set hs with hs2 | hs2
        · exact Or.inl ⟨s, hs2, hw⟩
        · subst hs2
          rcases initEntry_values cap ti n (storeValue v) w hw with h2 | h2
          · exact Or.inl ⟨ti, List.getElem?_mem hget, h2⟩
          · exact Or.inr h2
    | none =>
      rw [hdc] at h
      cases hci : findChildOfIntrinsicIdx chain with
      | none =>
        rw [hci] at h
        simp only at h
        cases h
      | some i =>
        rw [hci] at h
        simp only [Option.some.injEq] at h
        subst h
        intro s hs w hw
        rcases List.mem_append.mp hs with hs2 | hs2
        · rcases List.mem_append.mp hs2 with hs3 | hs3
          · exact Or.inl ⟨s, List.take_subset _ _ hs3, hw⟩
          · rw [List.mem_singleton.mp hs3] at hw
            rcases initEntry_values cap newDefinedConstantsTable n (storeValue v) w hw
              with h2 | h2
            · cases h2
            · exact Or.inr h2
        · exact Or.inl ⟨s, List.drop_subset _ _ hs2, hw⟩

/-- C4: every value stored into a symbol table by any write path is
non-invisible.  The copy step used by SetValueForSymbol and
DefineConstantForSymbol yields a non-invisible value, copies exactly
when the value is shared or invisible and stores the value directly
when it is uniquely owned and visible; the no-copy setter errors on an
invisible value; and all three write paths preserve the invariant that
no table of the chain holds an invisible value. -/
theorem C4_no_invisible_stored (cap : Nat) (t : EidosSymbolTable) (parents : SymbolChain)
    (n : EidosGlobalStringID) (v : EidosValue) :
    (storeValue v).invisible = false ∧
    (v.use_count = 1 → v.invisible = false → storeValue v = v) ∧
    (v.use_count ≠ 1 ∨ v.invisible = true → storeValue v = CopyValues v) ∧
    (v.invisible = true → SetValueForSymbolNoCopy cap t parents n v = none) ∧
    (∀ t' p', NoInvisibleChain (t :: parents) →
      SetValueForSymbol cap t parents n v = some (t', p') →
      NoInvisibleChain (t' :: p')) ∧
    (∀ t' p', NoInvisibleChain (t :: parents) →
      SetValueForSymbolNoCopy cap t parents n v = some (t', p') →
      NoInvisibleChain (t' :: p')) ∧
    (∀ chain chain', NoInvisibleChain chain →
      DefineConstantForSymbol cap chain n v = some chain' →
      NoInvisibleChain chain') := by
  refine ⟨storeValue_not_invisible v, ?_, ?_, ?_, ?_, ?_, ?_⟩
  · intro h1 h2
    rw [storeValue, if_neg]
    intro hc
    rcases hc with hc | hc
    · exact hc h1
    · rw [h2] at hc
      cases hc
  · intro hc
    rw [storeValue, if_pos hc]
  · intro hinv
    rw [SetValueForSymbolNoCopy, if_pos hinv]
  · intro t' p' hni hset
    rw [SetValueForSymbol] at hset
    obtain ⟨hp, -, -, -, -⟩ := setCore_some cap hset
    subst hp
    have hvals := setCore_values cap hset
    intro s hs w hw
    rcases List.mem_cons.mp hs with rfl | hs2
    · rcases hvals w hw with h2 | h2
      · exact hni t (List.mem_cons_self t _) w h2
      · rw [h2]
        exact storeValue_not_invisible v
    · exact hni s (List.mem_cons_of_mem _ hs2) w hw
  · intro t' p' hni hset
    rw [SetValueForSymbolNoCopy] at hset
    cases hv : v.invisible with
    | true =>
      rw [if_pos hv] at hset
      cases hset
    | false =>
      rw [if_neg (by rw [hv]; intro hc; cases hc)] at hset
      obtain ⟨hp, -, -, -, -⟩ := setCore_some cap hset
      subst hp
      have hvals := setCore_values cap hset
      intro s hs w hw
      rcases List.mem_cons.mp hs with rfl | hs2
      · rcases hvals w hw with h2 | h2
        · exact hni t (List.mem_cons_self t _) w h2
        · rw [h2]
          exact hv
      · exact hni s (List.mem_cons_of_mem _ hs2) w hw
  · intro chain chain' hni hdef
    have hvals := defineConstant_values cap hdef
    intro s hs w hw
    rcases hvals s hs w hw with ⟨s0, hs0, hw0⟩ | h2
    · exact hni s0 hs0 w hw0
    · rw [h2]
      exact storeValue_not_invisible v

theorem C4_witness :
    (storeValue ⟨5, true, 1⟩).invisible = false ∧
    storeValue ⟨5, false, 1⟩ = ⟨5, false, 1⟩ ∧
    storeValue ⟨5, false, 3⟩ = CopyValues ⟨5, false, 3⟩ ∧
    SetValueForSymbolNoCopy 30 ⟨EidosSymbolTableType.kVariablesTable, true, [], []⟩ [] 1
      ⟨5, true, 1⟩ = none ∧
    NoInvisibleChain
      [⟨EidosSymbolTableType.kVariablesTable, true, [(1, ⟨8, false, 1⟩)], []⟩] := by
  have hempty : NoInvisibleChain [⟨EidosSymbolTableType.kVariablesTable, true, [], []⟩] := by
    intro s hs w hw
    rcases List.mem_cons.mp hs with rfl | hs2
    · simp [ownValues] at hw
    · cases hs2
  refine ⟨(C4_no_invisible_stored 30 ⟨EidosSymbolTableType.kVariablesTable, true, [], []⟩ []
      1 ⟨5, true, 1⟩).1,
    (C4_no_invisible_stored 30 ⟨EidosSymbolTableType.kVariablesTable, true, [], []⟩ []
      1 ⟨5, false, 1⟩).2.1 rfl rfl,
    (C4_no_invisible_stored 30 ⟨EidosSymbolTableType.kVariablesTable, true, [], []⟩ []
      1 ⟨5, false, 3⟩).2.2.1 (Or.inl (by decide)),
    (C4_no_invisible_stored 30 ⟨EidosSymbolTableType.kVariablesTable, true, [], []⟩ []
      1 ⟨5, true, 1⟩).2.2.2.1 rfl,
    (C4_no_invisible_stored 30 ⟨EidosSymbolTableType.kVariablesTable, true, [], []⟩ []
      1 ⟨8, false, 1⟩).2.2.2.2.1
      ⟨EidosSymbolTableType.kVariablesTable, true, [(1, ⟨8, false, 1⟩)], []⟩ []
      hempty (by decide)⟩

theorem removeSymbol_append {pre rest : SymbolChain} {k : EidosGlobalStringID} {allow : Bool}
    (h : ∀ s ∈ pre, ownLookup s k = none) :
    _RemoveSymbol (pre ++ rest) k allow =
      (match _RemoveSymbol rest k allow with
       | some ps => some (pre ++ ps)
       | none => none) := by
  induction pre with
  | nil =>
    cases hr : _RemoveSymbol rest k allow <;> simp [hr]
  | cons t ts ih =>
    have ht := h t (List.mem_cons_self t ts)
    rw [List.cons_append]
    cases hu : t.using_internal_symbols_ with
    | true =>
      have hlb : lookupInternalBack t.internal_symbols_ k = none := by
        rw [ownLookup, hu] at ht
        simpa using ht
      have hfb : findBackSlot t.internal_symbols_ k = none :=
        (findBackSlot_eq_none _ _).mpr hlb
      rw [_RemoveSymbol]
      simp only [hu, if_true, hfb]
      rw [ih (fun s hs => h s (List.mem_cons_of_mem _ hs))]
      cases hr : _RemoveSymbol rest k allow <;> simp [hr]
    | false =>
      have hla : lookupAssoc t.hash_symbols_ k = none := by
        rw [ownLookup, hu] at ht
        simpa using ht
      rw [_RemoveSymbol]
      simp only [hu, Bool.false_eq_true, if_false, hla]
      rw [ih (fun s hs => h s (List.mem_cons_of_mem _ hs))]
      cases hr : _RemoveSymbol rest k allow <;> simp [hr]

theorem removeSymbol_head (t : EidosSymbolTable) (post : SymbolChain)
    (n : EidosGlobalStringID) (allow : Bool)
    (hheld : ownLookup t n ≠ none)
    (hnd : (t.internal_symbols_.map Prod.fst).Nodup)
    (hndh : (t.hash_symbols_.map Prod.fst).Nodup) :
    (t.table_type_ ≠ EidosSymbolTableType.kVariablesTable ∧
      t.table_type_ = EidosSymbolTableType.kEidosIntrinsicConstantsTable →
      _RemoveSymbol (t :: post) n allow = none) ∧
    (t.table_type_ ≠ EidosSymbolTableType.kVariablesTable ∧
      t.table_type_ ≠ EidosSymbolTableType.kEidosIntrinsicConstantsTable ∧ allow = false →
      _RemoveSymbol (t :: post) n allow = none) ∧
    ((t.table_type_ = EidosSymbolTableType.kVariablesTable ∨
      (t.table_type_ ≠ EidosSymbolTableType.kEidosIntrinsicConstantsTable ∧ allow = true)) →
      ∃ t', _RemoveSymbol (t :: post) n allow = some (t' :: post) ∧ ownLookup t' n = none) := by
  cases hu : t.using_internal_symbols_ with
  | true =>
    have hlb : lookupInternalBack t.internal_symbols_ n ≠ none := by
      rw [ownLookup, hu] at hheld
      simpa using hheld
    cases hfb : findBackSlot t.internal_symbols_ n with
    | none => exact absurd ((findBackSlot_eq_none _ _).mp hfb) hlb
    | some i =>
      refine ⟨?_, ?_, ?_⟩
      · intro ⟨hnv, hintr⟩
        rw [_RemoveSymbol]
        simp only [hu, if_true, hfb]
        rw [if_pos ⟨hnv, hintr⟩]
      · intro ⟨hnv, hnintr, hal⟩
        rw [_RemoveSymbol]
        simp only [hu, if_true, hfb]
        rw [if_neg (fun hc => hnintr hc.2), if_pos ⟨hnv, hal⟩]
      · intro hd
        have hc1 : ¬(t.table_type_ ≠ EidosSymbolTableType.kVariablesTable ∧
            t.table_type_ = EidosSymbolTableType.kEidosIntrinsicConstantsTable) := by
          rcases hd with hvar | ⟨hnintr, _⟩
          · exact fun hc => hc.1 hvar
          · exact fun hc => hnintr hc.2
        have hc2 : ¬(t.table_type_ ≠ EidosSymbolTableType.kVariablesTable ∧ allow = false) := by
          rcases hd with hvar | ⟨_, hal⟩
          · exact fun hc => hc.1 hvar
          · exact fun hc => by rw [hal] at hc; cases hc.2
        rw [_RemoveSymbol]
        simp only [hu, if_true, hfb]
        rw [if_neg hc1, if_neg hc2]
        refine ⟨_, rfl, ?_⟩
        rw [ownLookup]
        simp only [hu, if_true]
        rw [lookupInternalBack_eq_none]
        obtain ⟨l₁, w, l₂, hdec, hlen, hm2⟩ := findBackSlot_decomp hfb
        have hm1 : n ∉ l₁.map Prod.fst := by
          rw [hdec, List.map_append, List.map_cons] at hnd
          have hdisj := List.disjoint_of_nodup_append hnd
          exact fun hn => hdisj hn (List.mem_cons_self _ _)
        rw [hdec, ← hlen]
        exact removeAtBackfill_not_mem l₁ l₂ n w hm1 hm2
  | false =>
    have hla : lookupAssoc t.hash_symbols_ n ≠ none := by
      rw [ownLookup, hu] at hheld
      simpa using hheld
    cases hl : lookupAssoc t.hash_symbols_ n with
    | none => exact absurd hl hla
    | some w =>
      refine ⟨?_, ?_, ?_⟩
      · intro ⟨hnv, hintr⟩
        rw [_RemoveSymbol]
        simp only [hu, Bool.false_eq_true, if_false, hl]
        rw [if_pos ⟨hnv, hintr⟩]
      · intro ⟨hnv, hnintr, hal⟩
        rw [_RemoveSymbol]
        simp only [hu, Bool.false_eq_true, if_false, hl]
        rw [if_neg (fun hc => hnintr hc.2), if_pos ⟨hnv, hal⟩]
      · intro hd
        have hc1 : ¬(t.table_type_ ≠ EidosSymbolTableType.kVariablesTable ∧
            t.table_type_ = EidosSymbolTableType.kEidosIntrinsicConstantsTable) := by
          rcases hd with hvar | ⟨hnintr, _⟩
          · exact fun hc => hc.1 hvar
          · exact fun hc => hnintr hc.2
        have hc2 : ¬(t.table_type_ ≠ EidosSymbolTableType.kVariablesTable ∧ allow = false) := by
          rcases hd with hvar | ⟨_, hal⟩
          · exact fun hc => hc.1 hvar
          · exact fun hc => by rw [hal] at hc; cases hc.2
        rw [_RemoveSymbol]
        simp only [hu, Bool.false_eq_true, if_false, hl]
        rw [if_neg hc1, if_neg hc2]
        refine ⟨_, rfl, ?_⟩
        rw [ownLookup]
        simp only [hu, Bool.false_eq_true, if_false]
        exact lookupAssoc_hashErase_self hndh n

/-- C5: RemoveSymbol removes the binding from the nearest table of the
chain holding the name; a name held by the intrinsic-constants table can
never be removed, regardless of the allow-constant flag; a name held by
a defined-constants table is removed exactly when the flag is set; a
name held by a Variables table is always removed. -/
theorem C5_remove_nearest_with_constant_rules (pre : SymbolChain) (t : EidosSymbolTable)
    (post : SymbolChain) (n : EidosGlobalStringID) (allow : Bool)
    (hpre : ∀ s ∈ pre, ownLookup s n = none)
    (hheld : ownLookup t n ≠ none)
    (hnd : (t.internal_symbols_.map Prod.fst).Nodup)
    (hndh : (t.hash_symbols_.map Prod.fst).Nodup) :
    (t.table_type_ = EidosSymbolTableType.kEidosIntrinsicConstantsTable →
      _RemoveSymbol (pre ++ t :: post) n allow = none) ∧
    (t.table_type_ = EidosSymbolTableType.kEidosDefinedConstantsTable →
      _RemoveSymbol (pre ++ t :: post) n false = none ∧
      ∃ t', _RemoveSymbol (pre ++ t :: post) n true = some (pre ++ t' :: post) ∧
        ownLookup t' n = none) ∧
    (t.table_type_ = EidosSymbolTableType.kVariablesTable →
      ∃ t', _RemoveSymbol (pre ++ t :: post) n allow = some (pre ++ t' :: post) ∧
        ownLookup t' n = none) := by
  refine ⟨?_, ?_, ?_⟩
  · intro hintr
    have hnv : t.table_type_ ≠ EidosSymbolTableType.kVariablesTable := by
      rw [hintr]
      intro hc
      cases hc
    have h1 := (removeSymbol_head t post n allow hheld hnd hndh).1 ⟨hnv, hintr⟩
    rw [removeSymbol_append hpre, h1]
  · intro hdc
    have hnv : t.table_type_ ≠ EidosSymbolTableType.kVariablesTable := by
      rw [hdc]
      intro hc
      cases hc
    have hnintr : t.table_type_ ≠ EidosSymbolTableType.kEidosIntrinsicConstantsTable := by
      rw [hdc]
      intro hc
      cases hc
    constructor
    · have h1 := (removeSymbol_head t post n false hheld hnd hndh).2.1 ⟨hnv, hnintr, rfl⟩
      rw [removeSymbol_append hpre, h1]
    · obtain ⟨t', heq, hnone⟩ :=
        (removeSymbol_head t post n true hheld hnd hndh).2.2 (Or.inr ⟨hnintr, rfl⟩)
      refine ⟨t', ?_, hnone⟩
      rw [removeSymbol_append hpre, heq]
  · intro hvar
    obtain ⟨t', heq, hnone⟩ :=
      (removeSymbol_head t post n allow hheld hnd hndh).2.2 (Or.inl hvar)
    refine ⟨t', ?_, hnone⟩
    rw [removeSymbol_append hpre, heq]

theorem C5_witness :
    _RemoveSymbol
      [⟨EidosSymbolTableType.kEidosIntrinsicConstantsTable, true, [(70, ⟨314, false, 1⟩)], []⟩]
      70 true = none ∧
    _RemoveSymbol
      [⟨EidosSymbolTableType.kEidosIntrinsicConstantsTable, true, [(70, ⟨314, false, 1⟩)], []⟩]
      70 false = none ∧
    _RemoveSymbol
      [⟨EidosSymbolTableType.kEidosDefinedConstantsTable, true, [(8, ⟨3, false, 1⟩)], []⟩]
      8 false = none ∧
    (∃ t', _RemoveSymbol
      [⟨EidosSymbolTableType.kEidosDefinedConstantsTable, true, [(8, ⟨3, false, 1⟩)], []⟩]
      8 true = some [t'] ∧ ownLookup t' 8 = none) ∧
    (∃ t', _RemoveSymbol
      [⟨EidosSymbolTableType.kVariablesTable, true, [(9, ⟨4, false, 1⟩)], []⟩]
      9 false = some [t'] ∧ ownLookup t' 9 = none) := by
  refine ⟨?_, ?_, ?_, ?_, ?_⟩
  · exact (C5_remove_nearest_with_constant_rules []
      ⟨EidosSymbolTableType.kEidosIntrinsicConstantsTable, true, [(70, ⟨314, false, 1⟩)], []⟩
      [] 70 true (by decide) (by decide) (by decide) (by decide)).1 rfl
  · exact (C5_remove_nearest_with_constant_rules []
      ⟨EidosSymbolTableType.kEidosIntrinsicConstantsTable, true, [(70, ⟨314, false, 1⟩)], []⟩
      [] 70 false (by decide) (by decide) (by decide) (by decide)).1 rfl
  · exact ((C5_remove_nearest_with_constant_rules []
      ⟨EidosSymbolTableType.kEidosDefinedConstantsTable, true, [(8, ⟨3, false, 1⟩)], []⟩
      [] 8 false (by decide) (by decide) (by decide) (by decide)).2.1 rfl).1
  · exact ((C5_remove_nearest_with_constant_rules []
      ⟨EidosSymbolTableType.kEidosDefinedConstantsTable, true, [(8, ⟨3, false, 1⟩)], []⟩
      [] 8 false (by decide) (by decide) (by decide) (by decide)).2.1 rfl).2
  · exact (C5_remove_nearest_with_constant_rules []
      ⟨EidosSymbolTableType.kVariablesTable, true, [(9, ⟨4, false, 1⟩)], []⟩
      [] 9 false (by decide) (by decide) (by decide) (by decide)).2.2 rfl

theorem contains_false_iff (chain : SymbolChain) (k : EidosGlobalStringID) :
    ContainsSymbol chain k = false ↔ ∀ s ∈ chain, ownLookup s k = none := by
  constructor
  · intro h
    apply (getValue_eq_none_iff chain k).mp
    cases hg : _GetValue chain k with
    | none => rfl
    | some v =>
      rw [contains_eq_isSome, hg] at h
      cases h
  · intro h
    rw [contains_eq_isSome, (getValue_eq_none_iff chain k).mpr h]
    rfl

theorem findDC_get {l : SymbolChain} {j : Nat} (h : findDefinedConstantsIdx l = some j) :
    ∃ s, l[j]? = some s ∧
      s.table_type_ = EidosSymbolTableType.kEidosDefinedConstantsTable := by
  induction l generalizing j with
  | nil => cases h
  | cons t ts ih =>
    rw [findDefinedConstantsIdx] at h
    by_cases hd : t.table_type_ = EidosSymbolTableType.kEidosDefinedConstantsTable
    · rw [if_pos hd] at h
      injection h with h
      subst h
      exact ⟨t, by simp, hd⟩
    · rw [if_neg hd] at h
      cases hr : findDefinedConstantsIdx ts with
      | none =>
        rw [hr] at h
        cases h
      | some j2 =>
        rw [hr] at h
        simp at h
        subst h
        obtain ⟨s, hs, ht⟩ := ih hr
        exact ⟨s, by simpa using hs, ht⟩

theorem setEqTakeConsDrop {α : Type} (l : List α) (j : Nat) (a : α) (h : j < l.length) :
    l.set j a = l.take j ++ a :: l.drop (j + 1) := by
  induction l generalizing j with
  | nil => cases h
  | cons x xs ih =>
    cases j with
    | zero => simp
    | succ j2 =>
      simp [ih j2 (by simpa using h)]

/-- C6: DefineConstantForSymbol fails with the already-defined diagnostic
whenever the name is bound anywhere in the chain, as a variable or a
constant; otherwise it installs the possibly-copied value into the
chain's defined-constants table, creating one and linking it right above
the intrinsic-constants table when none exists in the chain, after which
GetValue from the head of the chain finds the binding and
SetValueForSymbol on the name fails as a constant redefinition. -/
theorem C6_define_constant (cap : Nat) (t₀ : EidosSymbolTable) (rest : SymbolChain)
    (n : EidosGlobalStringID) (v : EidosValue)
    (hvar : t₀.table_type_ = EidosSymbolTableType.kVariablesTable)
    (hwf : ∀ s ∈ t₀ :: rest, StorageWF s) :
    (ContainsSymbol (t₀ :: rest) n = true →
      DefineConstantForSymbol cap (t₀ :: rest) n v = none) ∧
    (ContainsSymbol (t₀ :: rest) n = false →
      (findDefinedConstantsIdx (t₀ :: rest) ≠ none ∨
        findChildOfIntrinsicIdx (t₀ :: rest) ≠ none) →
      ∃ rest', DefineConstantForSymbol cap (t₀ :: rest) n v = some (t₀ :: rest') ∧
        _GetValue (t₀ :: rest') n = some (storeValue v) ∧
        ∀ (cap2 : Nat) (w : EidosValue), SetValueForSymbol cap2 t₀ rest' n w = none) := by
  constructor
  · intro hcont
    rw [DefineConstantForSymbol, if_pos hcont]
  · intro hcont hidx
    have hcne : ¬ContainsSymbol (t₀ :: rest) n = true := by
      rw [hcont]
      intro hc
      cases hc
    have hall : ∀ s ∈ t₀ :: rest, ownLookup s n = none :=
      (contains_false_iff _ _).mp hcont
    have h0 : ownLookup t₀ n = none := hall t₀ (List.mem_cons_self _ _)
    cases hdc : findDefinedConstantsIdx (t₀ :: rest) with
    | some i =>
      have hstep : findDefinedConstantsIdx (t₀ :: rest) =
          (findDefinedConstantsIdx rest).map (· + 1) := by
        rw [findDefinedConstantsIdx, if_neg (by rw [hvar]; intro hc; cases hc)]
      cases hdcr : findDefinedConstantsIdx rest with
      | none =>
        rw [hstep, hdcr] at hdc
        cases hdc
      | some j =>
        obtain ⟨ti, hget, -⟩ := findDC_get hdcr
        have hjlt : j < rest.length := by
          by_contra hc
          push_neg at hc
          rw [List.getElem?_eq_none hc] at hget
          cases hget
        have hti_mem : ti ∈ rest := List.getElem?_mem hget
        have hti_none : ownLookup ti n = none := hall ti (List.mem_cons_of_mem _ hti_mem)
        have hti_wf : StorageWF ti := hwf ti (List.mem_cons_of_mem _ hti_mem)
        have hgv : _GetValue
            (t₀ :: rest.set j (_InitializeConstantSymbolEntry cap ti n (storeValue v))) n =
            some (storeValue v) := by
          rw [setEqTakeConsDrop rest j _ hjlt]
          have hpre2 : ∀ s ∈ t₀ :: rest.take j, ownLookup s n = none := by
            intro s hs
            rcases List.mem_cons.mp hs with rfl | hs2
            · exact h0
            · exact hall s (List.mem_cons_of_mem _ (List.take_subset _ _ hs2))
          have hread : _GetValue ((t₀ :: rest.take j) ++
              _InitializeConstantSymbolEntry cap ti n (storeValue v) :: rest.drop (j + 1)) n =
              _GetValue
                (_InitializeConstantSymbolEntry cap ti n (storeValue v) :: rest.drop (j + 1))
                n :=
            getValue_append_none hpre2
          refine hread.trans ?_
          simp [_GetValue, initEntry_lookup cap (storeValue v) hti_wf hti_none]
        refine ⟨rest.set j (_InitializeConstantSymbolEntry cap ti n (storeValue v)),
          ?_, hgv, ?_⟩
        · rw [DefineConstantForSymbol, if_neg hcne]
          simp only [hstep, hdcr, Option.map_some']
          simp only [List.getElem?_cons_succ, hget]
          rfl
        · have htail : _GetValue
              (rest.set j (_InitializeConstantSymbolEntry cap ti n (storeValue v))) n =
              some (storeValue v) := by
            have h2 := hgv
            simp only [_GetValue, h0] at h2
            exact h2
          have hcont2 : ContainsSymbol
              (rest.set j (_InitializeConstantSymbolEntry cap ti n (storeValue v))) n =
              true := by
            rw [contains_eq_isSome, htail]
            rfl
          intro cap2 w
          rw [SetValueForSymbol]
          exact (setCore_none_iff cap2 t₀ _ n (storeValue w)).mpr ⟨h0, hcont2⟩
    | none =>
      cases hci : findChildOfIntrinsicIdx (t₀ :: rest) with
      | none =>
        exfalso
        rcases hidx with h2 | h2
        · exact h2 hdc
        · exact h2 hci
      | some i =>
        have hfl : ownLookup
            (_InitializeConstantSymbolEntry cap newDefinedConstantsTable n (storeValue v)) n =
            some (storeValue v) :=
          initEntry_lookup cap (storeValue v) (fun _ => rfl) rfl
        have hgv : _GetValue
            (t₀ :: (rest.take i ++
              _InitializeConstantSymbolEntry cap newDefinedConstantsTable n (storeValue v) ::
              rest.drop i)) n = some (storeValue v) := by
          have hpre2 : ∀ s ∈ t₀ :: rest.take i, ownLookup s n = none := by
            intro s hs
            rcases List.mem_cons.mp hs with rfl | hs2
            · exact h0
            · exact hall s (List.mem_cons_of_mem _ (List.take_subset _ _ hs2))
          have hread : _GetValue ((t₀ :: rest.take i) ++
              _InitializeConstantSymbolEntry cap newDefinedConstantsTable n (storeValue v) ::
              rest.drop i) n =
              _GetValue
                (_InitializeConstantSymbolEntry cap newDefinedConstantsTable n (storeValue v) ::
                rest.drop i) n :=
            getValue_append_none hpre2
          refine hread.trans ?_
          simp [_GetValue, hfl]
        refine ⟨rest.take i ++
          _InitializeConstantSymbolEntry cap newDefinedConstantsTable n (storeValue v) ::
          rest.drop i, ?_, hgv, ?_⟩
        · rw [DefineConstantForSymbol, if_neg hcne]
          simp only [hdc, hci]
          simp only [List.take_succ_cons, List.drop_succ_cons]
          simp [List.append_assoc]
        · have htail : _GetValue
              (rest.take i ++
                _InitializeConstantSymbolEntry cap newDefinedConstantsTable n (storeValue v) ::
                rest.drop i) n = some (storeValue v) := by
            have h2 := hgv
            simp only [_GetValue, h0] at h2
            exact h2
          have hcont2 : ContainsSymbol
              (rest.take i ++
                _InitializeConstantSymbolEntry cap newDefinedConstantsTable n (storeValue v) ::
                rest.drop i) n = true := by
            rw [contains_eq_isSome, htail]
            rfl
          intro cap2 w
          rw [SetValueForSymbol]
          exact (setCore_none_iff cap2 t₀ _ n (storeValue w)).mpr ⟨h0, hcont2⟩

theorem C6_witness :
    DefineConstantForSymbol 30
      [⟨EidosSymbolTableType.kVariablesTable, true, [], []⟩,
       ⟨EidosSymbolTableType.kEidosIntrinsicConstantsTable, true, [(70, ⟨314, false, 1⟩)], []⟩]
      70 ⟨4, false, 1⟩ = none ∧
    (∃ rest', DefineConstantForSymbol 30
      [⟨EidosSymbolTableType.kVariablesTable, true, [], []⟩,
       ⟨EidosSymbolTableType.kEidosIntrinsicConstantsTable, true, [(70, ⟨314, false, 1⟩)], []⟩]
      8 ⟨3, false, 1⟩ = some (⟨EidosSymbolTableType.kVariablesTable, true, [], []⟩ :: rest') ∧
      _GetValue (⟨EidosSymbolTableType.kVariablesTable, true, [], []⟩ :: rest') 8 =
        some ⟨3, false, 1⟩ ∧
      SetValueForSymbol 30 ⟨EidosSymbolTableType.kVariablesTable, true, [], []⟩ rest' 8
        ⟨5, false, 1⟩ = none) := by
  have hwfc : ∀ s ∈
      (⟨EidosSymbolTableType.kVariablesTable, true, [], []⟩ : EidosSymbolTable) ::
      [(⟨EidosSymbolTableType.kEidosIntrinsicConstantsTable, true,
        [(70, ⟨314, false, 1⟩)], []⟩ : EidosSymbolTable)], StorageWF s := by
    intro s hs
    rcases List.mem_cons.mp hs with rfl | hs2
    · exact fun _ => rfl
    · rcases List.mem_cons.mp hs2 with rfl | hs3
      · exact fun _ => rfl
      · cases hs3
  constructor
  · exact (C6_define_constant 30 ⟨EidosSymbolTableType.kVariablesTable, true, [], []⟩
      [⟨EidosSymbolTableType.kEidosIntrinsicConstantsTable, true, [(70, ⟨314, false, 1⟩)], []⟩]
      70 ⟨4, false, 1⟩ rfl hwfc).1 (by decide)
  · obtain ⟨rest', h1, h2, h3⟩ :=
      (C6_define_constant 30 ⟨EidosSymbolTableType.kVariablesTable, true, [], []⟩
        [⟨EidosSymbolTableType.kEidosIntrinsicConstantsTable, true,
          [(70, ⟨314, false, 1⟩)], []⟩]
        8 ⟨3, false, 1⟩ rfl hwfc).2 (by decide) (Or.inr (by decide))
    exact ⟨rest', h1, by rw [h2]; decide, h3 30 ⟨5, false, 1⟩⟩

/-- C7: processing of one command-line constant string: a string that
fails to parse as an assignment to an identifier, or whose expression
fails to evaluate, ends in the malformed-constant-definition diagnostic;
a string whose left-hand side is not a legal name to define (an
intrinsic constant name, an Eidos keyword, the host name sim, or a
p/g/m/s prefix followed only by digits) ends in the illegal-name
diagnostic; and a string that parses, has a legal name and evaluates is
installed as a defined constant in the constants table, where lookup
then finds it. -/
theorem C7_define_constants_from_command_line (cap : Nat)
    (parseAssign : String → Option (String × String))
    (evalExpr : String → Option EidosValue)
    (internId : String → EidosGlobalStringID)
    (tbl : EidosSymbolTable) (c : String) :
    (parseAssign c = none →
      Eidos_ProcessCommandLineConstant cap parseAssign evalExpr internId tbl c =
        CLDefineResult.malformed) ∧
    (∀ nm ex, parseAssign c = some (nm, ex) → Eidos_GoodSymbolForDefine nm = true →
      evalExpr ex = none →
      Eidos_ProcessCommandLineConstant cap parseAssign evalExpr internId tbl c =
        CLDefineResult.malformed) ∧
    (∀ nm ex, parseAssign c = some (nm, ex) → Eidos_GoodSymbolForDefine nm = false →
      Eidos_ProcessCommandLineConstant cap parseAssign evalExpr internId tbl c =
        CLDefineResult.illegalName nm) ∧
    (∀ nm ex w, parseAssign c = some (nm, ex) → Eidos_GoodSymbolForDefine nm = true →
      evalExpr ex = some w →
      Eidos_ProcessCommandLineConstant cap parseAssign evalExpr internId tbl c =
        CLDefineResult.installed
          (_InitializeConstantSymbolEntry cap tbl (internId nm) w) nm w ∧
      (StorageWF tbl → ownLookup tbl (internId nm) = none →
        ownLookup (_InitializeConstantSymbolEntry cap tbl (internId nm) w)
          (internId nm) = some w)) ∧
    (∀ s ∈ ["T", "F", "NULL", "PI", "E", "INF", "NAN", "if", "else", "do", "while",
        "for", "in", "next", "break", "return", "sim"],
      Eidos_GoodSymbolForDefine s = false) ∧
    (∀ (first : Char) (rest2 : List Char),
      (first = 'p' ∨ first = 'g' ∨ first = 'm' ∨ first = 's') → rest2 ≠ [] →
      (∀ ch ∈ rest2, ¬(ch < '0' ∨ '9' < ch)) →
      Eidos_GoodSymbolForDefine (String.mk (first :: rest2)) = false) := by
  refine ⟨?_, ?_, ?_, ?_, by decide, ?_⟩
  · intro hp
    rw [Eidos_ProcessCommandLineConstant, hp]
  · intro nm ex hp hg he
    rw [Eidos_ProcessCommandLineConstant, hp]
    simp only [hg, if_true, he]
  · intro nm ex hp hg
    rw [Eidos_ProcessCommandLineConstant, hp]
    simp only [hg, Bool.false_eq_true, if_false]
  · intro nm ex w hp hg he
    constructor
    · rw [Eidos_ProcessCommandLineConstant, hp]
      simp only [hg, if_true, he]
    · intro hwf hnone
      exact initEntry_lookup cap w hwf hnone
  · intro first rest2 hfirst hne hdig
    have hlen : 2 ≤ (String.mk (first :: rest2)).length := by
      have : rest2.length ≥ 1 := List.length_pos.mpr hne
      simp only [String.length, List.length_cons]
      omega
    have hall : rest2.all (fun ch => if ch < '0' ∨ '9' < ch then false else true) = true := by
      rw [List.all_eq_true]
      intro ch hc
      rw [if_neg (hdig ch hc)]
    rw [Eidos_GoodSymbolForDefine]
    simp only [hlen, if_true]
    simp only [hfirst]
    rcases hfirst with h | h | h | h <;> subst h <;> simp [hall] <;>
      (intro x hx hnd
       have hd := hdig x hx
       push_neg at hd
       exact absurd (hnd hd.1) (not_lt.mpr hd.2))

theorem C7_witness :
    Eidos_ProcessCommandLineConstant 30 (fun _ => none) (fun _ => none) (fun _ => 0)
      ⟨EidosSymbolTableType.kEidosIntrinsicConstantsTable, true, [], []⟩ "x=(" =
      CLDefineResult.malformed ∧
    Eidos_ProcessCommandLineConstant 30 (fun _ => some ("x", "foo()")) (fun _ => none)
      (fun _ => 11) ⟨EidosSymbolTableType.kEidosIntrinsicConstantsTable, true, [], []⟩
      "x=foo()" = CLDefineResult.malformed ∧
    Eidos_ProcessCommandLineConstant 30 (fun _ => some ("sim", "1"))
      (fun _ => some ⟨1, false, 1⟩) (fun _ => 12)
      ⟨EidosSymbolTableType.kEidosIntrinsicConstantsTable, true, [], []⟩ "sim=1" =
      CLDefineResult.illegalName "sim" ∧
    Eidos_ProcessCommandLineConstant 30 (fun _ => some ("myconst", "7"))
      (fun _ => some ⟨7, false, 1⟩) (fun _ => 13)
      ⟨EidosSymbolTableType.kEidosIntrinsicConstantsTable, true, [], []⟩ "myconst=7" =
      CLDefineResult.installed
        ⟨EidosSymbolTableType.kEidosIntrinsicConstantsTable, true, [(13, ⟨7, false, 1⟩)], []⟩
        "myconst" ⟨7, false, 1⟩ ∧
    Eidos_GoodSymbolForDefine "p1" = false ∧
    Eidos_GoodSymbolForDefine "PI" = false := by
  refine ⟨?_, ?_, ?_, ?_, ?_, ?_⟩
  · exact (C7_define_constants_from_command_line 30 (fun _ => none) (fun _ => none)
      (fun _ => 0) ⟨EidosSymbolTableType.kEidosIntrinsicConstantsTable, true, [], []⟩
      "x=(").1 rfl
  · exact (C7_define_constants_from_command_line 30 (fun _ => some ("x", "foo()"))
      (fun _ => none) (fun _ => 11)
      ⟨EidosSymbolTableType.kEidosIntrinsicConstantsTable, true, [], []⟩
      "x=foo()").2.1 "x" "foo()" rfl (by decide) rfl
  · exact (C7_define_constants_from_command_line 30 (fun _ => some ("sim", "1"))
      (fun _ => some ⟨1, false, 1⟩) (fun _ => 12)
      ⟨EidosSymbolTableType.kEidosIntrinsicConstantsTable, true, [], []⟩
      "sim=1").2.2.1 "sim" "1" rfl (by decide)
  · exact (((C7_define_constants_from_command_line 30 (fun _ => some ("myconst", "7"))
      (fun _ => some ⟨7, false, 1⟩) (fun _ => 13)
      ⟨EidosSymbolTableType.kEidosIntrinsicConstantsTable, true, [], []⟩
      "myconst=7").2.2.2.1 "myconst" "7" ⟨7, false, 1⟩ rfl (by decide) rfl).1).trans
      (by decide)
  · exact (C7_define_constants_from_command_line 30 (fun _ => none) (fun _ => none)
      (fun _ => 0) ⟨EidosSymbolTableType.kEidosIntrinsicConstantsTable, true, [], []⟩
      "").2.2.2.2.2 'p' ['1'] (Or.inl rfl) (by decide) (by decide)
  · exact (C7_define_constants_from_command_line 30 (fun _ => none) (fun _ => none)
      (fun _ => 0) ⟨EidosSymbolTableType.kEidosIntrinsicConstantsTable, true, [], []⟩
      "").2.2.2.2.1 "PI" (by decide)

/-- C8: emitting the terminator marker in throws mode raises the
catchable runtime error, leaving the diagnostic in the termination
stream, and retrieving the message returns the accumulated string
(trailing line breaks trimmed) while resetting the stream to empty; in
exits mode the terminator appends the caret-annotated source-line
excerpt built by eidos_log_script_error from the stored byte offsets to
the printed message and exits with the nonzero EXIT_FAILURE status, and
for any valid offset range the excerpt ends in a caret line spanning
exactly the offending range. -/
theorem C8_terminate_throw_or_exit (ctx : EidosTermContext) :
    (ctx.gEidosTerminateThrows = true →
      ∃ ctx2, eidos_terminate_emit ctx =
          TermOutcome.raised "A runtime error occurred in Eidos" ctx2 ∧
        ctx2.gEidosTermination = ctx.gEidosTermination ++ "\n" ∧
        (EidosGetTrimmedRaiseMessage ctx2).1 =
          trimTrailingNewlines (ctx.gEidosTermination ++ "\n") ∧
        (EidosGetTrimmedRaiseMessage ctx2).2.gEidosTermination = "") ∧
    (ctx.gEidosTerminateThrows = false →
      eidos_terminate_emit ctx = TermOutcome.exited EXIT_FAILURE
        (eidos_log_script_error (ctx.consoleOut ++ "\n") ctx.gEidosCharacterStartOfError
          ctx.gEidosCharacterEndOfError ctx.gEidosCurrentScript
          ctx.gEidosExecutingRuntimeScript) ∧ EXIT_FAILURE ≠ 0) ∧
    (∀ (pout script : String) (pstart pend : Int) (lam : Bool),
      0 ≤ pstart → pstart ≤ pend → pend ≤ (script.length : Int) →
      ∃ pre2, eidos_log_script_error pout pstart pend (some script) lam =
        pre2 ++ String.mk (List.replicate (pend.toNat + 1 - pstart.toNat) '^') ++ "\n" ∧
        pend.toNat + 1 - pstart.toNat = (pend - pstart).toNat + 1) := by
  refine ⟨?_, ?_, ?_⟩
  · intro ht
    rw [eidos_terminate_emit, if_pos ht]
    refine ⟨_, rfl, rfl, ?_, ?_⟩
    · rw [EidosGetTrimmedRaiseMessage, if_pos ht]
    · rw [EidosGetTrimmedRaiseMessage, if_pos ht]
  · intro hf
    constructor
    · rw [eidos_terminate_emit, if_neg (by rw [hf]; intro hc; cases hc)]
    · decide
  · intro pout script pstart pend lam h1 h2 h3
    simp only [eidos_log_script_error]
    rw [if_pos ⟨h1, h2⟩, if_pos ⟨le_trans h2 h3, h3⟩]
    exact ⟨_, rfl, by omega⟩

theorem C8_witness :
    (∃ ctx2, eidos_terminate_emit ⟨true, "ERROR: oops", "", -1, -1, none, false⟩ =
        TermOutcome.raised "A runtime error occurred in Eidos" ctx2 ∧
      (EidosGetTrimmedRaiseMessage ctx2).1 = "ERROR: oops" ∧
      (EidosGetTrimmedRaiseMessage ctx2).2.gEidosTermination = "") ∧
    eidos_terminate_emit ⟨false, "", "ERROR: bad", 4, 6, some "x = 1 + ;", false⟩ =
      TermOutcome.exited 1
        (eidos_log_script_error ("ERROR: bad" ++ "\n") 4 6 (some "x = 1 + ;") false) ∧
    (∃ pre2, eidos_log_script_error "out" 4 6 (some "x = 1 + ;") false =
      pre2 ++ String.mk (List.replicate 3 '^') ++ "\n") := by
  refine ⟨?_, ?_, ?_⟩
  · obtain ⟨ctx2, he, -, h3, h4⟩ :=
      (C8_terminate_throw_or_exit ⟨true, "ERROR: oops", "", -1, -1, none, false⟩).1 rfl
    exact ⟨ctx2, he, h3.trans (by decide), h4⟩
  · exact ((C8_terminate_throw_or_exit
      ⟨false, "", "ERROR: bad", 4, 6, some "x = 1 + ;", false⟩).2.1 rfl).1
  · obtain ⟨pre2, heq, -⟩ :=
      (C8_terminate_throw_or_exit ⟨false, "", "ERROR: bad", 4, 6, some "x = 1 + ;", false⟩).2.2
      "out" "x = 1 + ;" 4 6 false (by decide) (by decide) (by decide)
    exact ⟨pre2, heq⟩

/-- C9: every MutationRun handed out by NewMutationRun is empty: a
freshly constructed run has size 0; FreeMutationRun resets the count to
0 before pushing the run on the free list, so the all-zero invariant of
the free list is preserved by both operations and a recycled run also
reports size 0 when reused. -/
theorem C9_new_mutation_runs_empty (st : MutationRunState) (r : MutationRun) :
    MutationRun.fresh.size = 0 ∧
    ((∀ q ∈ st.s_freed_mutation_runs_, q.size = 0) →
      (NewMutationRun st).1.size = 0 ∧
      ∀ q ∈ (NewMutationRun st).2.s_freed_mutation_runs_, q.size = 0) ∧
    ((∀ q ∈ st.s_freed_mutation_runs_, q.size = 0) →
      ∀ q ∈ (FreeMutationRun r st).s_freed_mutation_runs_, q.size = 0) ∧
    (NewMutationRun (FreeMutationRun r st)).1.size = 0 := by
  refine ⟨rfl, ?_, ?_, ?_⟩
  · intro hinv
    cases hl : st.s_freed_mutation_runs_.getLast? with
    | some back =>
      constructor
      · simp only [NewMutationRun, hl]
        exact hinv back (List.mem_of_mem_getLast? hl)
      · simp only [NewMutationRun, hl]
        intro q hq
        exact hinv q (List.dropLast_subset _ hq)
    | none =>
      constructor
      · simp only [NewMutationRun, hl]
        rfl
      · simp only [NewMutationRun, hl]
        exact hinv
  · intro hinv q hq
    simp only [FreeMutationRun] at hq
    rcases List.mem_append.mp hq with h2 | h2
    · exact hinv q h2
    · rw [List.mem_singleton.mp h2]
      rfl
  · simp only [NewMutationRun, FreeMutationRun, List.getLast?_concat]
    rfl

theorem C9_witness :
    MutationRun.fresh.size = 0 ∧
    (NewMutationRun ⟨[]⟩).1.size = 0 ∧
    (NewMutationRun (FreeMutationRun ⟨7, [1, 2], 3⟩ ⟨[]⟩)).1.size = 0 := by
  refine ⟨(C9_new_mutation_runs_empty ⟨[]⟩ ⟨7, [1, 2], 3⟩).1, ?_, ?_⟩
  · exact ((C9_new_mutation_runs_empty ⟨[]⟩ ⟨7, [1, 2], 3⟩).2.1
      (by intro q hq; cases hq)).1
  · exact (C9_new_mutation_runs_empty ⟨[]⟩ ⟨7, [1, 2], 3⟩).2.2.2

/-- C10: an ID never registered nor produced by interning makes
StringForEidosGlobalStringID return the canonical undefined string
instead of raising, while an ID produced by EidosGlobalStringIDForString
for a string s maps back to s, both immediately and after any further
interning (the intern/lookup pair round-trips), the registry invariants
being preserved by interning. -/
theorem C10_intern_round_trip (st : EidosStringRegistry) (s : String) (i : Nat) :
    (lookupAssoc st.gIDToString i = none →
      StringForEidosGlobalStringID st i = gEidosStr_undefined) ∧
    (RegistryWF st → st.gNextUnusedID ≤ i →
      StringForEidosGlobalStringID st i = gEidosStr_undefined) ∧
    (RegistryWF st →
      StringForEidosGlobalStringID (EidosGlobalStringIDForString st s).2
        (EidosGlobalStringIDForString st s).1 = s) ∧
    (RegistryWF st → RegistryWF (EidosGlobalStringIDForString st s).2) ∧
    (∀ i0 s0, lookupAssoc st.gIDToString i0 = some s0 →
      lookupAssoc (EidosGlobalStringIDForString st s).2.gIDToString i0 = some s0) := by
  refine ⟨?_, ?_, ?_, ?_, ?_⟩
  · intro h
    rw [StringForEidosGlobalStringID, h]
  · intro hwf hle
    cases hl : lookupAssoc st.gIDToString i with
    | none => rw [StringForEidosGlobalStringID, hl]
    | some s0 =>
      exfalso
      have hmem := lookupAssoc_some_mem hl
      have := hwf.1 (i, s0) hmem
      simp only at this
      omega
  · intro hwf
    cases hl : lookupAssoc st.gStringToID s with
    | some id =>
      simp only [EidosGlobalStringIDForString, hl]
      have hmem := lookupAssoc_some_mem hl
      have h2 := hwf.2 (s, id) hmem
      simp only at h2
      rw [StringForEidosGlobalStringID, h2]
    | none =>
      simp only [EidosGlobalStringIDForString, hl]
      have hnone : lookupAssoc st.gIDToString st.gNextUnusedID = none := by
        cases hl2 : lookupAssoc st.gIDToString st.gNextUnusedID with
        | none => rfl
        | some s0 =>
          have hmem := lookupAssoc_some_mem hl2
          have := hwf.1 _ hmem
          simp only at this
          omega
      rw [StringForEidosGlobalStringID]
      rw [lookupAssoc_append, hnone]
      simp [lookupAssoc, optOrElse]
  · intro hwf
    cases hl : lookupAssoc st.gStringToID s with
    | some id =>
      simp only [EidosGlobalStringIDForString, hl]
      exact hwf
    | none =>
      have hnone : lookupAssoc st.gIDToString st.gNextUnusedID = none := by
        cases hl2 : lookupAssoc st.gIDToString st.gNextUnusedID with
        | none => rfl
        | some s0 =>
          have hmem := lookupAssoc_some_mem hl2
          have := hwf.1 _ hmem
          simp only at this
          omega
      simp only [EidosGlobalStringIDForString, hl]
      constructor
      · intro p hp
        rcases List.mem_append.mp hp with h2 | h2
        · have := hwf.1 p h2
          simp only at this ⊢
          omega
        · rw [List.mem_singleton.mp h2]
          simp
      · intro p hp
        rcases List.mem_append.mp hp with h2 | h2
        · have h3 := hwf.2 p h2
          simp only at h3 ⊢
          rw [lookupAssoc_append, h3]
          rfl
        · rw [List.mem_singleton.mp h2]
          simp only
          rw [lookupAssoc_append, hnone]
          simp [lookupAssoc, optOrElse]
  · intro i0 s0 h0
    cases hl : lookupAssoc st.gStringToID s with
    | some id =>
      simp only [EidosGlobalStringIDForString, hl]
      exact h0
    | none =>
      simp only [EidosGlobalStringIDForString, hl]
      rw [lookupAssoc_append, h0]
      rfl

theorem C10_witness :
    StringForEidosGlobalStringID ⟨[("PI", 0)], [(0, "PI")], 1⟩ 99 = "undefined" ∧
    StringForEidosGlobalStringID
      (EidosGlobalStringIDForString ⟨[("PI", 0)], [(0, "PI")], 1⟩ "newName").2
      (EidosGlobalStringIDForString ⟨[("PI", 0)], [(0, "PI")], 1⟩ "newName").1 =
      "newName" ∧
    StringForEidosGlobalStringID
      (EidosGlobalStringIDForString ⟨[("PI", 0)], [(0, "PI")], 1⟩ "PI").2
      (EidosGlobalStringIDForString ⟨[("PI", 0)], [(0, "PI")], 1⟩ "PI").1 = "PI" := by
  have hwf : RegistryWF ⟨[("PI", 0)], [(0, "PI")], 1⟩ := ⟨by decide, by decide⟩
  refine ⟨?_, ?_, ?_⟩
  · exact (C10_intern_round_trip ⟨[("PI", 0)], [(0, "PI")], 1⟩ "x" 99).2.1 hwf (by decide)
  · exact (C10_intern_round_trip ⟨[("PI", 0)], [(0, "PI")], 1⟩ "newName" 0).2.2.1 hwf
  · exact (C10_intern_round_trip ⟨[("PI", 0)], [(0, "PI")], 1⟩ "PI" 0).2.2.1 hwf
